import Mathlib

/-!
Verification of the EAF converter core (`eaf_converter3.py`, with the
variant aligner of `eaf_converter4.py`).

Strings are modelled as `List Char`; Python's millisecond times are
modelled as `Int` (the attributes are parsed with `int(...)`).  Python's
`int(x)` applied to the nonconstant float products of the sentence
splitter truncates toward zero, which is modelled exactly by `Int.tdiv`
of the exact rational arithmetic.
-/

set_option maxHeartbeats 1000000
set_option maxRecDepth 10000

/-- Whitespace in the sense of Python's `str.split()` / `str.strip()`
(restricted to the ASCII whitespace that can occur here). -/
def isWS (c : Char) : Bool :=
  c = ' ' || c = '\t' || c = '\n' || c = '\r'

/-- The sentence-final punctuation characters of the splitter: `.`, `?`, `!`. -/
def isPunct (c : Char) : Bool :=
  c = '.' || c = '?' || c = '!'

/-- The morpheme boundary delimiters `=` and `-`. -/
def isDelim (c : Char) : Bool :=
  c = '=' || c = '-'

/-- Python `text.strip()`: drop leading and trailing whitespace. -/
def pyStrip (l : List Char) : List Char :=
  ((l.dropWhile isWS).reverse.dropWhile isWS).reverse

/-- Python `text.split()` (no argument): split on whitespace runs,
dropping empty tokens. -/
def pySplit : List Char → List (List Char)
  | [] => []
  | c :: cs =>
    if isWS c then pySplit cs
    else
      match cs with
      | [] => [[c]]
      | d :: _ =>
        if isWS d then [c] :: pySplit cs
        else
          match pySplit cs with
          | t :: ts => (c :: t) :: ts
          | [] => [[c]]

/-- Python `' '.join(parts)`. -/
def joinSpace : List (List Char) → List Char
  | [] => []
  | [t] => t
  | t :: ts => t ++ ' ' :: joinSpace ts

/-- Python `re.split(r'([.?!]+)', text)`: alternating list starting and
ending with a (possibly empty) punctuation-free part, with the maximal
punctuation runs kept as separate parts in between. -/
def reSplitPunct : List Char → List (List Char)
  | [] => [[]]
  | c :: cs =>
    let parts := reSplitPunct cs
    if isPunct c then
      match parts with
      | [] :: run :: rest => [] :: (c :: run) :: rest
      | [[]] => [[], [c], []]
      | [] => [[], [c]]
      | (x :: p) :: rest => [] :: [c] :: (x :: p) :: rest
    else
      match parts with
      | p :: rest => (c :: p) :: rest
      | [] => [[c]]

/-- Python `re.match(r'^[.?!]+$', part)`: nonempty and all punctuation. -/
def isPunctRun (l : List Char) : Bool :=
  !l.isEmpty && l.all isPunct

/-- Python `re.split(r'([=-])', word)`: split keeping each delimiter as
its own one-character part (segments between delimiters may be empty). -/
def reSplitDelims : List Char → List (List Char)
  | [] => [[]]
  | c :: cs =>
    if isDelim c then [] :: [c] :: reSplitDelims cs
    else
      match reSplitDelims cs with
      | p :: rest => (c :: p) :: rest
      | [] => [[c]]

/-- Python `re.split(r'[=-]', word)` (non-capturing): only the segments. -/
def splitOnDelims : List Char → List (List Char)
  | [] => [[]]
  | c :: cs =>
    if isDelim c then [] :: splitOnDelims cs
    else
      match splitOnDelims cs with
      | p :: rest => (c :: p) :: rest
      | [] => [[c]]

/-- `text.replace('.', '').replace('?', '').replace('!', '')`: the three
sequential single-character deletions amount to removing every
sentence-final punctuation character. -/
def cleanChars (l : List Char) : List Char :=
  l.filter (fun c => !isPunct c)

/-- One annotation record as stored in a tier: `start_time`, `end_time`
(milliseconds) and the stripped `value`. -/
structure Annotation where
  start_time : Int
  end_time : Int
  value : List Char
deriving DecidableEq, Repr

/-- One output sentence record of `_split_sentences_by_punctuation`. -/
structure Sentence where
  text : List Char
  morph : List Char
  gloss : List Char
  translation : List Char
  start_time : Int
  end_time : Int
deriving DecidableEq, Repr

/-- A reference word's morpheme-unit count in the splitter:
`len(re.split(r'[=-]', word))`. -/
def numMorphsIn (w : List Char) : Nat :=
  (splitOnDelims w).length

/-- The splitter's morpheme-unit count of a sentence:
sum over the words of the cleaned text of `numMorphsIn`. -/
def sentMorphCount (cleanText : List Char) : Nat :=
  ((pySplit cleanText).map numMorphsIn).sum

/-- The proportional time estimate of the splitter.  When
`total_chars > 0 and start_time != end_time`,
`sentence_start = start_time + int(current_chars/total_chars * duration)` and
`sentence_end = sentence_start + int(sentence_chars/total_chars * duration)`;
otherwise both bounds collapse to `(start_time, end_time)`. -/
def mkTime (s e : Int) (total curChars sentChars : Nat) : Int × Int :=
  if 0 < total ∧ s ≠ e then
    let d := e - s
    let st := s + Int.tdiv ((curChars : Int) * d) (total : Int)
    (st, st + Int.tdiv ((sentChars : Int) * d) (total : Int))
  else
    (s, e)

/-- The loop state of `_split_sentences_by_punctuation`. -/
structure SplitSt where
  sentences : List Sentence
  cur : List Char
  morphIdx : Nat
  glossIdx : Nat
  curChars : Nat
deriving Repr

/-- Emission of one sentence inside the loop (punctuation-run case):
slices `num_morphs` tokens off each dependent cursor and estimates times. -/
def emitSentence (mw gw : List (List Char)) (translation : List Char)
    (s e : Int) (total : Nat) (st : SplitSt) : SplitSt :=
  let clean := cleanChars st.cur
  let n := sentMorphCount clean
  let sentMorphs := if st.morphIdx < mw.length then (mw.drop st.morphIdx).take n else []
  let sentGlosses := if st.glossIdx < gw.length then (gw.drop st.glossIdx).take n else []
  let sc := clean.length
  let t := mkTime s e total st.curChars sc
  { sentences := st.sentences ++
      [⟨pyStrip st.cur, joinSpace sentMorphs, joinSpace sentGlosses, translation, t.1, t.2⟩]
    cur := []
    morphIdx := st.morphIdx + n
    glossIdx := st.glossIdx + n
    curChars := st.curChars + sc }

/-- The body of the `for part in text_parts` loop. -/
def stepPart (mw gw : List (List Char)) (translation : List Char)
    (s e : Int) (total : Nat) (st : SplitSt) (part : List Char) : SplitSt :=
  if isPunctRun part then
    let st' : SplitSt := { st with cur := st.cur ++ part }
    if pyStrip st'.cur ≠ [] then emitSentence mw gw translation s e total st' else st'
  else if pyStrip part ≠ [] then { st with cur := st.cur ++ part }
  else st

/-- Emission of the leftover buffer after the loop: the remaining
dependent tokens are taken wholesale. -/
def emitLeftover (mw gw : List (List Char)) (translation : List Char)
    (s e : Int) (total : Nat) (st : SplitSt) : SplitSt :=
  let remMorphs := if st.morphIdx < mw.length then mw.drop st.morphIdx else []
  let remGlosses := if st.glossIdx < gw.length then gw.drop st.glossIdx else []
  let sc := (cleanChars st.cur).length
  let t := mkTime s e total st.curChars sc
  { sentences := st.sentences ++
      [⟨pyStrip st.cur, joinSpace remMorphs, joinSpace remGlosses, translation, t.1, t.2⟩]
    cur := []
    morphIdx := st.morphIdx
    glossIdx := st.glossIdx
    curChars := st.curChars + sc }

/-- `_split_sentences_by_punctuation(text, morph, gloss, translation,
start_time, end_time)` of `eaf_converter3.py`. -/
def splitSentencesByPunctuation (text morph gloss translation : List Char)
    (s e : Int) : List Sentence :=
  let parts := reSplitPunct text
  let mw := pySplit morph
  let gw := pySplit gloss
  let total := (cleanChars text).length
  let st := parts.foldl (stepPart mw gw translation s e total) ⟨[], [], 0, 0, 0⟩
  let st' := if pyStrip st.cur ≠ [] then emitLeftover mw gw translation s e total st else st
  if st'.sentences = [] then [⟨text, morph, gloss, translation, s, e⟩]
  else st'.sentences

/-- The overlap test of `_find_overlapping_annotation`:
`max(ann.start, window_start) < min(ann.end, window_end)` or the span
equals the window exactly. -/
def overlapsWindow (ws we : Int) (a : Annotation) : Prop :=
  max a.start_time ws < min a.end_time we ∨ (a.start_time = ws ∧ a.end_time = we)

instance (ws we : Int) (a : Annotation) : Decidable (overlapsWindow ws we a) := by
  unfold overlapsWindow; infer_instance

/-- `_find_overlapping_annotation(tier_data, start_time, end_time)`:
filter the overlapping annotations, sort them stably by `start_time`
(Python's `list.sort` is stable; modelled by insertion sort), and join
the non-empty values with single spaces. -/
def findOverlappingAnnotation (tierData : List Annotation) (ws we : Int) : List Char :=
  let matching := tierData.filter (fun a => overlapsWindow ws we a)
  let sorted := matching.insertionSort (fun a b => a.start_time ≤ b.start_time)
  joinSpace ((sorted.filter (fun a => a.value ≠ [])).map (·.value))

/-- `extract_sentences`: for every non-empty baseline annotation, gather
the overlapping morph/gloss/translation strings and split; concatenate
in tier order. -/
def extractSentences (textTier morphTier glossTier translationTier : List Annotation) :
    List Sentence :=
  (textTier.filter (fun a => a.value ≠ [])).flatMap fun a =>
    splitSentencesByPunctuation a.value
      ( findOverlappingAnnotation morphTier a.start_time a.end_time)
      ( findOverlappingAnnotation glossTier a.start_time a.end_time)
      ( findOverlappingAnnotation translationTier a.start_time a.end_time)
      a.start_time a.end_time

/-! ## IPA / tipa character mapping (`_convert_ipa_to_tipa`,
`_convert_tipa_back_to_ipa`) -/

/-- `pat` is a prefix of `s`. -/
def startsW : List Char → List Char → Bool
  | [], _ => true
  | _ :: _, [] => false
  | p :: ps, c :: cs => p = c && startsW ps cs

/-- Python `s.replace(pat, rep)` for non-empty `pat`: left-to-right,
non-overlapping.  Structural recursion on fuel; with `fuel ≥ s.length`
and `pat ≠ []` the fuel never runs out. -/
def replaceAllGo (pat rep : List Char) : Nat → List Char → List Char
  | _, [] => []
  | 0, s => s
  | f + 1, c :: cs =>
    if startsW pat (c :: cs) then rep ++ replaceAllGo pat rep f ((c :: cs).drop pat.length)
    else c :: replaceAllGo pat rep f cs

/-- Python `s.replace(pat, rep)`. -/
def replaceAll (pat rep s : List Char) : List Char :=
  replaceAllGo pat rep s.length s

/-- The `ipa_to_tipa` table of `_convert_ipa_to_tipa`, in source
(insertion) order. -/
def ipaToTipaTable : List (Char × List Char) := [
  ('ɨ', "\\textbari\x7b\x7d".toList),
  ('ɯ', "\\textturnm\x7b\x7d".toList),
  ('ɛ', "\\textepsilon\x7b\x7d".toList),
  ('ɔ', "\\textopeno\x7b\x7d".toList),
  ('æ', "\\textae\x7b\x7d".toList),
  ('ɑ', "\\textscripta\x7b\x7d".toList),
  ('ɒ', "\\textturnscripta\x7b\x7d".toList),
  ('ə', "\\textschwa\x7b\x7d".toList),
  ('ɪ', "\\textsci\x7b\x7d".toList),
  ('ʊ', "\\textupsilon\x7b\x7d".toList),
  ('ʃ', "\\textesh\x7b\x7d".toList),
  ('ʒ', "\\textyogh\x7b\x7d".toList),
  ('θ', "\\texttheta\x7b\x7d".toList),
  ('ð', "\\texteth\x7b\x7d".toList),
  ('ŋ', "\\texteng\x7b\x7d".toList),
  ('ɲ', "\\textltailn\x7b\x7d".toList),
  ('ɳ', "\\textrtailn\x7b\x7d".toList),
  ('ɱ', "\\textltailm\x7b\x7d".toList),
  ('ɾ', "\\textfishhookr\x7b\x7d".toList),
  ('ɽ', "\\textrtailr\x7b\x7d".toList),
  ('ɻ', "\\textturnr\x7b\x7d".toList),
  ('ɭ', "\\textrtaill\x7b\x7d".toList),
  ('ʎ', "\\textturny\x7b\x7d".toList),
  ('ʈ', "\\textrtailt\x7b\x7d".toList),
  ('ɖ', "\\textrtaild\x7b\x7d".toList),
  ('ʂ', "\\textrtails\x7b\x7d".toList),
  ('ʐ', "\\textrtailz\x7b\x7d".toList),
  ('ɕ', "\\textctc\x7b\x7d".toList),
  ('ʑ', "\\textctj\x7b\x7d".toList),
  ('ç', "\\textccedilla\x7b\x7d".toList),
  ('ʝ', "\\textctj\x7b\x7d".toList),
  ('ɣ', "\\textgamma\x7b\x7d".toList),
  ('χ', "\\textchi\x7b\x7d".toList),
  ('ʁ', "\\textinvscr\x7b\x7d".toList),
  ('ħ', "\\textcrh\x7b\x7d".toList),
  ('ʕ', "\\textrevglotstop\x7b\x7d".toList),
  ('ʔ', "\\textglotstop\x7b\x7d".toList),
  ('ɸ', "\\textphi\x7b\x7d".toList),
  ('β', "\\textbeta\x7b\x7d".toList),
  ('ʋ', "\\textscriptv\x7b\x7d".toList),
  ('ɹ', "\\textturnr\x7b\x7d".toList),
  ('ɰ', "\\textturnmrleg\x7b\x7d".toList),
  ('ɺ', "\\textlhti\x7b\x7d".toList),
  ('ɢ', "\\textscg\x7b\x7d".toList),
  ('ʛ', "\\texthtg\x7b\x7d".toList),
  ('ʄ', "\\texthtbardotlessjdotlessj\x7b\x7d".toList),
  ('ɠ', "\\texthtg\x7b\x7d".toList),
  ('ɡ', "\\textscg\x7b\x7d".toList),
  ('ː', "\\textlengthmark\x7b\x7d".toList),
  ('ˈ', "\\textprimstress\x7b\x7d".toList),
  ('ˌ', "\\textsecstress\x7b\x7d".toList),
  ('ʲ', "\\textpal\x7b\x7d".toList),
  ('ʷ', "\\textlab\x7b\x7d".toList),
  ('ʰ', "\\textsuperscript\x7bh\x7d".toList),
  ('ⁿ', "\\textsuperscript\x7bn\x7d".toList),
  ('ʼ', "\\textglotstop\x7b\x7d".toList)]

/-- The replacement sequence of `_convert_tipa_back_to_ipa`, in source
order. -/
def tipaToIpaTable : List (List Char × Char) := [
  ("\\textbari\x7b\x7d".toList, 'ɨ'),
  ("\\textturnm\x7b\x7d".toList, 'ɯ'),
  ("\\textepsilon\x7b\x7d".toList, 'ɛ'),
  ("\\textopeno\x7b\x7d".toList, 'ɔ'),
  ("\\textae\x7b\x7d".toList, 'æ'),
  ("\\textscripta\x7b\x7d".toList, 'ɑ'),
  ("\\textturnscripta\x7b\x7d".toList, 'ɒ'),
  ("\\textschwa\x7b\x7d".toList, 'ə'),
  ("\\textsci\x7b\x7d".toList, 'ɪ'),
  ("\\textupsilon\x7b\x7d".toList, 'ʊ'),
  ("\\textesh\x7b\x7d".toList, 'ʃ'),
  ("\\textyogh\x7b\x7d".toList, 'ʒ'),
  ("\\texttheta\x7b\x7d".toList, 'θ'),
  ("\\texteth\x7b\x7d".toList, 'ð'),
  ("\\texteng\x7b\x7d".toList, 'ŋ'),
  ("\\textltailn\x7b\x7d".toList, 'ɲ'),
  ("\\textrtailn\x7b\x7d".toList, 'ɳ'),
  ("\\textltailm\x7b\x7d".toList, 'ɱ'),
  ("\\textfishhookr\x7b\x7d".toList, 'ɾ'),
  ("\\textrtailr\x7b\x7d".toList, 'ɽ'),
  ("\\textturnr\x7b\x7d".toList, 'ɻ'),
  ("\\textrtaill\x7b\x7d".toList, 'ɭ'),
  ("\\textturny\x7b\x7d".toList, 'ʎ'),
  ("\\textrtailt\x7b\x7d".toList, 'ʈ'),
  ("\\textrtaild\x7b\x7d".toList, 'ɖ'),
  ("\\textrtails\x7b\x7d".toList, 'ʂ'),
  ("\\textrtailz\x7b\x7d".toList, 'ʐ'),
  ("\\textctc\x7b\x7d".toList, 'ɕ'),
  ("\\textctj\x7b\x7d".toList, 'ʑ'),
  ("\\textccedilla\x7b\x7d".toList, 'ç'),
  ("\\textgamma\x7b\x7d".toList, 'ɣ'),
  ("\\textchi\x7b\x7d".toList, 'χ'),
  ("\\textinvscr\x7b\x7d".toList, 'ʁ'),
  ("\\textcrh\x7b\x7d".toList, 'ħ'),
  ("\\textrevglotstop\x7b\x7d".toList, 'ʕ'),
  ("\\textglotstop\x7b\x7d".toList, 'ʔ'),
  ("\\textphi\x7b\x7d".toList, 'ɸ'),
  ("\\textbeta\x7b\x7d".toList, 'β'),
  ("\\textscriptv\x7b\x7d".toList, 'ʋ'),
  ("\\textturnmrleg\x7b\x7d".toList, 'ɰ'),
  ("\\textlhti\x7b\x7d".toList, 'ɺ'),
  ("\\textscg\x7b\x7d".toList, 'ɢ'),
  ("\\texthtg\x7b\x7d".toList, 'ʛ'),
  ("\\texthtbardotlessjdotlessj\x7b\x7d".toList, 'ʄ'),
  ("\\textbardotlessj\x7b\x7d".toList, 'ɟ'),
  ("\\textlengthmark\x7b\x7d".toList, 'ː'),
  ("\\textprimstress\x7b\x7d".toList, 'ˈ'),
  ("\\textsecstress\x7b\x7d".toList, 'ˌ'),
  ("\\textpal\x7b\x7d".toList, 'ʲ'),
  ("\\textlab\x7b\x7d".toList, 'ʷ'),
  ("\\textsuperscript\x7bh\x7d".toList, 'ʰ'),
  ("\\textsuperscript\x7bn\x7d".toList, 'ⁿ')]

/-- `_convert_ipa_to_tipa(text)`: apply the table's replacements in
order.  (The guard `if not text: return text` is the identity on the
empty string, which the fold already yields.) -/
def convertIpaToTipa (text : List Char) : List Char :=
  ipaToTipaTable.foldl (fun acc e => replaceAll [e.1] e.2 acc) text

/-- `_convert_tipa_back_to_ipa(text)`: apply the inverse replacements in
source order. -/
def convertTipaBackToIpa (text : List Char) : List Char :=
  tipaToIpaTable.foldl (fun acc e => replaceAll e.1 [e.2] acc) text

/-! ## Reference resolver (`_get_ref_time`) -/

/-- An `ALIGNABLE_ANNOTATION`: id and its two time-slot references. -/
structure AlignableAnn where
  annId : List Char
  ref1 : List Char
  ref2 : List Char
deriving DecidableEq, Repr

/-- A `REF_ANNOTATION`: id and its `ANNOTATION_REF` (empty when the
attribute is missing, which Python treats as falsy). -/
structure RefAnn where
  annId : List Char
  annRef : List Char
deriving DecidableEq, Repr

/-- One tier as scanned by `_get_ref_time`: its alignable annotations
first, then its referential ones. -/
structure TierR where
  aligns : List AlignableAnn
  refs : List RefAnn
deriving DecidableEq, Repr

/-- `self.time_slots.get(slot_id, 0)`. -/
def slotGet (slots : List (List Char × Int)) (sid : List Char) : Int :=
  match slots.find? (fun e => e.1 = sid) with
  | some e => e.2
  | none => 0

/-- The scan of one tier: the first alignable annotation with the wanted
id wins; otherwise the first referential annotation with the wanted id
and a non-empty (truthy) `ANNOTATION_REF`. -/
def tierSearch (t : TierR) (refId : List Char) :
    Option (Sum (List Char × List Char) (List Char)) :=
  match t.aligns.find? (fun a => a.annId = refId) with
  | some a => some (Sum.inl (a.ref1, a.ref2))
  | none =>
    match t.refs.find? (fun r => r.annId = refId ∧ r.annRef ≠ []) with
    | some r => some (Sum.inr r.annRef)
    | none => none

/-- The scan over all tiers, in order. -/
def docSearch (tiers : List TierR) (refId : List Char) :
    Option (Sum (List Char × List Char) (List Char)) :=
  match tiers with
  | [] => none
  | t :: ts =>
    match tierSearch t refId with
    | some r => some r
    | none => docSearch ts refId

/-- `_get_ref_time(ref_id)`.  The Python recursion has no cycle guard and
can diverge on cyclic documents; the model makes the recursion depth
explicit as fuel and returns `none` exactly where Python would recurse
beyond the given depth. -/
def getRefTime (fuel : Nat) (slots : List (List Char × Int)) (tiers : List TierR)
    (refId : List Char) : Option (Int × Int) :=
  match docSearch tiers refId with
  | some (Sum.inl (r1, r2)) => some (slotGet slots r1, slotGet slots r2)
  | some (Sum.inr nested) =>
    match fuel with
    | 0 => none
    | f + 1 => getRefTime f slots tiers nested
  | none => some (0, 0)

/-! ## Boundary aligner (`_align_morphs_with_text` of `eaf_converter3.py`
and `_align_morphs_with_text1` of `eaf_converter4.py`) -/

/-- `segment in ['=', '-']`. -/
def isDelimSeg (seg : List Char) : Bool :=
  seg = ['='] || seg = ['-']

/-- The consumption loop over one word's segments: every non-delimiter
segment with non-blank content takes the next dependent token while
tokens remain (`if morph_idx < len(morph_list)`). -/
def consumeSegs : List (List Char) → List (List Char) → List (List Char)
  | [], _ => []
  | seg :: rest, cursor =>
    if isDelimSeg seg then consumeSegs rest cursor
    else if pyStrip seg ≠ [] then
      match cursor with
      | [] => consumeSegs rest []
      | t :: ts => t :: consumeSegs rest ts
    else consumeSegs rest cursor

/-- The reassembly loop of `_align_morphs_with_text`: delimiters are kept
in place, non-blank segments are replaced by the word's dependent tokens
in order while they last. -/
def reassemble : List (List Char) → List (List Char) → List (List Char)
  | [], _ => []
  | seg :: rest, wm =>
    if isDelimSeg seg then seg :: reassemble rest wm
    else if pyStrip seg ≠ [] ∧ wm ≠ [] then
      match wm with
      | [] => reassemble rest wm
      | t :: ts => t :: reassemble rest ts
    else reassemble rest wm

/-- The per-word loop of `_align_morphs_with_text`, with the shared
forward cursor over the dependent tokens. -/
def alignCore : List (List Char) → List (List Char) → List (List Char)
  | [], _ => []
  | w :: ws, cursor =>
    let segs := reSplitDelims w
    let wm := consumeSegs segs cursor
    let rest := alignCore ws (cursor.drop wm.length)
    if wm ≠ [] then (reassemble segs wm).flatten :: rest else rest

/-- `_align_morphs_with_text(text, morph)` of `eaf_converter3.py`. -/
def alignMorphsWithText (text morph : List Char) : List Char :=
  if text = [] ∨ morph = [] then morph
  else
    let morphList := pySplit morph
    if morphList = [] then morph
    else joinSpace (alignCore (pySplit text) morphList)

/-- `m.endswith('=') or m.endswith('-')`. -/
def endsWithDelim (m : List Char) : Bool :=
  match m.getLast? with
  | some c => isDelim c
  | none => false

/-- The `morphs_with_delims` construction of `_align_morphs_with_text1`
(`eaf_converter4.py`): a delimiter is appended to the previous entry when
one exists, a non-blank segment appends the next token.  `acc` is the
reversed list built so far (its length equals `morph_pos`, so the source's
`morphs_with_delims and morph_pos > 0` test is `acc ≠ []`). -/
def mwdGo : List (List Char) → List (List Char) → List (List Char) → List (List Char)
  | [], _, acc => acc.reverse
  | seg :: rest, wm, acc =>
    if isDelimSeg seg then
      mwdGo rest wm (match acc with
        | [] => []
        | h :: t => (h ++ seg) :: t)
    else if pyStrip seg ≠ [] ∧ wm ≠ [] then
      match wm with
      | [] => mwdGo rest wm acc
      | t :: ts => mwdGo rest ts (t :: acc)
    else mwdGo rest wm acc

/-- The combining pass of `_align_morphs_with_text1`: entries ending with
a delimiter are concatenated with their successors. -/
def combineMorphs : List (List Char) → List Char → List (List Char)
  | [], temp => if temp ≠ [] then [temp] else []
  | m :: rest, temp =>
    if endsWithDelim m then combineMorphs rest (temp ++ m)
    else (temp ++ m) :: combineMorphs rest []

/-- The per-word loop of `_align_morphs_with_text1`; `result_parts` is
extended with the whole combined list of one word. -/
def alignCore1 : List (List Char) → List (List Char) → List (List Char)
  | [], _ => []
  | w :: ws, cursor =>
    let segs := reSplitDelims w
    let wm := consumeSegs segs cursor
    let rest := alignCore1 ws (cursor.drop wm.length)
    if wm ≠ [] then combineMorphs (mwdGo segs wm []) [] ++ rest else rest

/-- `_align_morphs_with_text1(text1, morph_or_gloss)` of `eaf_converter4.py`. -/
def alignMorphsWithText1 (text1 morph : List Char) : List Char :=
  if text1 = [] ∨ morph = [] then morph
  else
    let morphList := pySplit morph
    if morphList = [] then morph
    else joinSpace (alignCore1 (pySplit text1) morphList)

/-! ## Audio segment index computation (`save_audio_segment`) -/

/-- `padded_start = max(0, start_ms - padding_ms)`. -/
def paddedStartMs (startMs paddingMs : Int) : Int :=
  max 0 (startMs - paddingMs)

/-- `start_sample = int((padded_start / 1000.0) * self.sample_rate)`. -/
def startSampleIdx (startMs paddingMs sr : Int) : Int :=
  Int.tdiv (paddedStartMs startMs paddingMs * sr) 1000

/-- `end_sample = int((end_ms / 1000.0) * self.sample_rate)`. -/
def endSampleIdx (endMs sr : Int) : Int :=
  Int.tdiv (endMs * sr) 1000

/-- `padded_end_sample = min(len(self.audio_data), end_sample + int((padding_ms / 1000.0) * self.sample_rate))`. -/
def paddedEndSampleIdx (bufLen endMs paddingMs sr : Int) : Int :=
  min bufLen (endSampleIdx endMs sr + Int.tdiv (paddingMs * sr) 1000)

/-! ## Statements of claimed properties (used to state refutations) -/

/-- The claimed global ordering of `extract_sentences`: `start_time` is
nondecreasing along the output list. -/
def nondecreasingStarts (L : List Sentence) : Prop :=
  List.Chain' (fun a b => a.start_time ≤ b.start_time) L

/-! ## Dependent-token accounting for the boundary aligner -/

/-- The dependent tokens readable off one space-free word: the non-empty
delimiter-separated segments. -/
def depTokensWord (w : List Char) : List (List Char) :=
  (splitOnDelims w).filter (fun t => !t.isEmpty)

/-- The dependent tokens readable off an aligned string. -/
def depTokens (s : List Char) : List (List Char) :=
  (pySplit s).flatMap depTokensWord

/-- The number of non-empty non-delimiter segments of one reference word
(the source's consumption count per word). -/
def segCount (w : List Char) : Nat :=
  ((reSplitDelims w).filter (fun seg => !isDelimSeg seg && !(pyStrip seg).isEmpty)).length

/-- The total number of non-empty non-delimiter segments across all
reference words. -/
def totalSegs (text : List Char) : Nat :=
  ((pySplit text).map segCount).sum

/-! ## Block decomposition machinery for the tipa round trip -/

/-- Substituting a single character by a string everywhere. -/
def charSub (p : Char) (cmd : List Char) (B : List Char) : List Char :=
  B.flatMap fun x => if x = p then cmd else [x]

/-- Folding a forward replacement table over a string block. -/
def charFoldAux (tbl : List (Char × List Char)) (B : List Char) : List Char :=
  tbl.foldl (fun B e => charSub e.1 e.2 B) B

/-- The effect of the whole forward table on one character. -/
def charFold (c : Char) : List Char :=
  charFoldAux ipaToTipaTable [c]

/-- One inverse replacement step viewed on a single block. -/
def blockStep (B : List Char) (e : List Char × Char) : List Char :=
  if B = e.1 then [e.2] else B

/-- The effect of the whole inverse table on one block. -/
def blockFold (B : List Char) (tbl : List (List Char × Char)) : List Char :=
  tbl.foldl blockStep B

/-- `goodBlockb P B`: the replacement of `P` cannot start strictly inside
`B` nor overlap its boundary: either `B = P`, or `P` and `B` are mutually
prefix-free and the head of `P` does not occur in the tail of `B`. -/
def goodBlockb (P B : List Char) : Bool :=
  match P with
  | [] => false
  | p :: _ => !B.isEmpty && (B == P || (!startsW P B && !startsW B P && !(B.tail.contains p)))

/-- `blockOKb tbl B`: along the whole inverse replacement sequence, the
successive residues of block `B` stay well-separated from every pattern. -/
def blockOKb : List (List Char × Char) → List Char → Bool
  | [], _ => true
  | e :: tbl, B => goodBlockb e.1 B && blockOKb tbl (blockStep B e)

/-- The forward-table keys whose tipa command belongs to them alone
(all keys except ʝ, ɹ, ɠ, ɡ and ʼ, whose commands are shared with
ʑ, ɻ, ʛ, ɢ and ʔ respectively). -/
def goodKeys : List Char :=
  ['ɨ', 'ɯ', 'ɛ', 'ɔ', 'æ', 'ɑ', 'ɒ', 'ə', 'ɪ', 'ʊ', 'ʃ', 'ʒ', 'θ', 'ð',
   'ŋ', 'ɲ', 'ɳ', 'ɱ', 'ɾ', 'ɽ', 'ɻ', 'ɭ', 'ʎ', 'ʈ', 'ɖ', 'ʂ', 'ʐ', 'ɕ',
   'ʑ', 'ç', 'ɣ', 'χ', 'ʁ', 'ħ', 'ʕ', 'ʔ', 'ɸ', 'β', 'ʋ', 'ɰ', 'ɺ', 'ɢ',
   'ʛ', 'ʄ', 'ː', 'ˈ', 'ˌ', 'ʲ', 'ʷ', 'ʰ', 'ⁿ']

/-- Shape of the output of `reSplitDelims` on a whitespace-free word:
parts alternate between delimiter-free whitespace-free parts (flag
`false`) and single-delimiter parts (flag `true`). -/
def AltSegs : Bool → List (List Char) → Prop
  | _, [] => True
  | false, s :: rest => (∀ c ∈ s, isDelim c = false ∧ isWS c = false) ∧ AltSegs true rest
  | true, s :: rest => (s = ['='] ∨ s = ['-']) ∧ AltSegs false rest

/-- The number of consuming segments of a segment list: non-delimiter
segments with non-blank content, each of which takes one dependent
token in the consumption loop. -/
def consCount (segs : List (List Char)) : Nat :=
  (segs.filter (fun seg => !isDelimSeg seg && !(pyStrip seg).isEmpty)).length

/-- Invariant of the splitter loop state: the emitted sentences form a
monotone non-overlapping chain anchored at the window start, whose last
end stays below the proportional bound of the consumed characters. -/
def SplitChainInv (s e : Int) (total : Nat) (st : SplitSt) : Prop :=
  List.Chain' (fun a b => a.end_time ≤ b.start_time) st.sentences ∧
  (∀ y ∈ st.sentences, s ≤ y.start_time ∧ y.start_time ≤ y.end_time) ∧
  (∀ y, st.sentences.getLast? = some y →
    y.end_time ≤ s + ((st.curChars * (e - s).toNat / total : Nat) : Int)) ∧
  (st.sentences = [] → st.curChars = 0) ∧
  (∀ y, st.sentences.head? = some y → y.start_time = s)

instance : IsTotal Annotation (fun a b => a.start_time ≤ b.start_time) :=
  ⟨fun a b => le_total a.start_time b.start_time⟩

instance : IsTrans Annotation (fun a b => a.start_time ≤ b.start_time) :=
  ⟨fun _ _ _ hab hbc => le_trans hab hbc⟩

/-! # Theorems -/

/-! ## C8: degenerate aligner inputs -/

/-- C8 counterexample: `align("a", "")` returns the empty string (the
second argument), not the first argument `"a"` as claimed. -/
theorem c8_counterexample : alignMorphsWithText ['a'] [] ≠ ['a'] := by decide

/-- C8 (amended): both degenerate cases return the dependent (second)
argument unchanged: `align("", d) = d` and `align(r, "") = ""`. -/
theorem c8_align_degenerate :
    (∀ d : List Char, alignMorphsWithText [] d = d) ∧
    (∀ r : List Char, alignMorphsWithText r [] = []) := by
  constructor
  · intro d; simp [alignMorphsWithText]
  · intro r; simp [alignMorphsWithText]

/-! ## C9: audio slice index clamping -/

/-- C9: the padded start offset of `save_audio_segment` is
`max(0, start_ms - padding_ms)`, hence never negative (in particular
`start_ms = 0, padding_ms = 100` gives `0`), and the padded end sample
index is clamped to the loaded buffer length.  (The millisecond-sliced
`pydub` branch delegates its end clamping to the audio library, which
the spec treats as an abstract audio source.) -/
theorem c9_audio_clamping :
    ∀ startMs endMs paddingMs sr bufLen : Int,
      paddedStartMs startMs paddingMs = max 0 (startMs - paddingMs) ∧
      0 ≤ paddedStartMs startMs paddingMs ∧
      paddedStartMs 0 100 = 0 ∧
      paddedEndSampleIdx bufLen endMs paddingMs sr ≤ bufLen := by
  intro startMs endMs paddingMs sr bufLen
  exact ⟨rfl, le_max_left _ _, by decide, min_le_left _ _⟩

/-! ## C5: missing reference id resolves to (0, 0) -/

theorem docSearch_eq_none (tiers : List TierR) (refId : List Char)
    (h : ∀ t ∈ tiers, (∀ a ∈ t.aligns, a.annId ≠ refId) ∧
      (∀ r ∈ t.refs, r.annId ≠ refId)) :
    docSearch tiers refId = none := by
  induction tiers with
  | nil => rfl
  | cons t ts ih =>
    have ht := h t (by simp)
    have h1 : t.aligns.find? (fun a => a.annId = refId) = none := by
      rw [List.find?_eq_none]
      intro a ha
      simpa using ht.1 a ha
    have h2 : t.refs.find? (fun r => r.annId = refId ∧ r.annRef ≠ []) = none := by
      rw [List.find?_eq_none]
      intro r hr
      simp only [decide_eq_true_eq, not_and]
      intro hEq
      exact absurd hEq (ht.2 r hr)
    simp only [docSearch, tierSearch, h1, h2]
    exact ih fun t' ht' => h t' (by simp [ht'])

/-- C5: a reference id that matches no annotation id in any tier resolves
to `(0, 0)` for every recursion budget: the missing reference is a silent
fallback (`some`), never a failure. -/
theorem c5_missing_ref (fuel : Nat) (slots : List (List Char × Int))
    (tiers : List TierR) (refId : List Char)
    (h : ∀ t ∈ tiers, (∀ a ∈ t.aligns, a.annId ≠ refId) ∧
      (∀ r ∈ t.refs, r.annId ≠ refId)) :
    getRefTime fuel slots tiers refId = some (0, 0) := by
  unfold getRefTime
  rw [docSearch_eq_none tiers refId h]

/-- C5 witness at a concrete document and missing id. -/
theorem c5_missing_ref_witness :
    (∀ t ∈ [TierR.mk [⟨"a1".toList, "ts1".toList, "ts2".toList⟩]
        [⟨"r1".toList, "a1".toList⟩]],
      (∀ a ∈ t.aligns, a.annId ≠ "zz".toList) ∧
      (∀ r ∈ t.refs, r.annId ≠ "zz".toList)) ∧
    getRefTime 3 [("ts1".toList, 5)]
      [TierR.mk [⟨"a1".toList, "ts1".toList, "ts2".toList⟩]
        [⟨"r1".toList, "a1".toList⟩]] "zz".toList = some (0, 0) :=
  ⟨by decide, c5_missing_ref 3 _ _ _ (by decide)⟩

/-! ## C3: overlap matcher -/

/-- C3: `find_overlap` returns exactly the non-empty values of the
annotations passing the overlap test (strict overlap of the clipped
window, or exact span equality), sorted ascending by `start_time` and
joined by single spaces; on an empty tier it returns the empty string.
The function is total, so no error is ever signalled. -/
theorem c3_find_overlap (tierData : List Annotation) (ws we : Int) :
    (∃ L : List Annotation,
      L.Perm (tierData.filter (fun a => overlapsWindow ws we a)) ∧
      L.Sorted (fun a b => a.start_time ≤ b.start_time) ∧
      findOverlappingAnnotation tierData ws we =
        joinSpace ((L.filter (fun a => a.value ≠ [])).map (·.value))) ∧
    findOverlappingAnnotation [] ws we = [] := by
  constructor
  · exact ⟨(tierData.filter (fun a => overlapsWindow ws we a)).insertionSort
      (fun a b => a.start_time ≤ b.start_time),
      List.perm_insertionSort _ _, List.sorted_insertionSort _ _, rfl⟩
  · rfl

/-! ## C1, C4, C6, C7: counterexamples -/

/-- C4 counterexample: `"a"` has no sentence-final punctuation, but with
the dependent input `"x  y"` the single returned Sentence carries the
whitespace-normalised `"x y"`, not the full dependent input. -/
theorem c4_counterexample :
    (∀ c ∈ "a".toList, isPunct c = false) ∧
    splitSentencesByPunctuation "a".toList "x  y".toList [] [] 0 10 =
      [⟨"a".toList, "x y".toList, [], [], 0, 10⟩] ∧
    "x y".toList ≠ "x  y".toList := by
  decide

/-- C6 counterexample: a baseline tier sorted by `start_time` whose spans
overlap (`[0,1000]` and `[100,200]`) produces the extraction starts
`[0, 500, 100]`, which are not nondecreasing. -/
theorem c6_counterexample :
    List.Chain' (fun a b => a.start_time ≤ b.start_time)
      [ Annotation.mk 0 1000 "ab.cd.".toList, Annotation.mk 100 200 "x".toList] ∧
    (extractSentences
        [ Annotation.mk 0 1000 "ab.cd.".toList, Annotation.mk 100 200 "x".toList]
        [] [] []).map (·.start_time) = [0, 500, 100] ∧
    ¬ nondecreasingStarts (extractSentences
        [ Annotation.mk 0 1000 "ab.cd.".toList, Annotation.mk 100 200 "x".toList]
        [] [] []) := by
  refine ⟨by simp [List.chain'_cons, List.chain'_singleton], by decide, fun h => ?_⟩
  rw [(by decide : extractSentences
        [ Annotation.mk 0 1000 "ab.cd.".toList, Annotation.mk 100 200 "x".toList]
        [] [] [] =
      [⟨"ab.".toList, [], [], [], 0, 500⟩, ⟨"cd.".toList, [], [], [], 500, 1000⟩,
       ⟨"x".toList, [], [], [], 100, 200⟩])] at h
  simp [nondecreasingStarts, List.chain'_cons, List.chain'_singleton] at h

/-- C7 counterexample: `'ʝ'` is a key of the forward mapping, but the
round trip sends it to `'ʑ'` (both map to the command `textctj`). -/
theorem c7_counterexample :
    'ʝ' ∈ ipaToTipaTable.map (·.1) ∧
    convertTipaBackToIpa (convertIpaToTipa ['ʝ']) = ['ʑ'] ∧
    (['ʑ'] : List Char) ≠ ['ʝ'] := by
  decide

/-! ## Helper lemmas about the string primitives -/

theorem dropWhile_eq_self_of_none {p : Char → Bool} {l : List Char}
    (h : ∀ c ∈ l, p c = false) : l.dropWhile p = l := by
  cases l with
  | nil => rfl
  | cons c cs => simp [List.dropWhile_cons, h c (by simp)]

theorem pyStrip_eq_self {l : List Char} (h : ∀ c ∈ l, isWS c = false) :
    pyStrip l = l := by
  unfold pyStrip
  rw [dropWhile_eq_self_of_none h,
    dropWhile_eq_self_of_none (fun c hc => h c (List.mem_reverse.mp hc)),
    List.reverse_reverse]

theorem mem_dropWhile_of_mem {p : Char → Bool} {l : List Char} {c : Char}
    (hc : c ∈ l) (hp : p c = false) : c ∈ l.dropWhile p := by
  induction l with
  | nil => cases hc
  | cons d ds ih =>
    rcases List.mem_cons.mp hc with rfl | hmem
    · rw [List.dropWhile_cons, hp]
      simp
    · by_cases hd : p d
      · rw [List.dropWhile_cons, if_pos hd]
        exact ih hmem
      · rw [List.dropWhile_cons, if_neg hd]
        simp [hmem]

theorem mem_pyStrip_of_mem {l : List Char} {c : Char} (hc : c ∈ l)
    (hp : isWS c = false) : c ∈ pyStrip l := by
  unfold pyStrip
  simp only [List.mem_reverse]
  exact mem_dropWhile_of_mem (List.mem_reverse.mpr (mem_dropWhile_of_mem hc hp)) hp

theorem pyStrip_ne_nil {l : List Char} {c : Char} (hc : c ∈ l)
    (hp : isWS c = false) : pyStrip l ≠ [] :=
  List.ne_nil_of_mem (mem_pyStrip_of_mem hc hp)

theorem pySplit_cons (c : Char) (cs : List Char) :
    pySplit (c :: cs) = if isWS c then pySplit cs else
      match cs with
      | [] => [[c]]
      | d :: _ =>
        if isWS d then [c] :: pySplit cs
        else
          match pySplit cs with
          | t :: ts => (c :: t) :: ts
          | [] => [[c]] := by
  rw [pySplit.eq_def]

theorem pySplit_sound : ∀ l : List Char, ∀ t ∈ pySplit l,
    t ≠ [] ∧ ∀ c ∈ t, isWS c = false := by
  intro l
  induction l with
  | nil => intro t ht; cases ht
  | cons c cs ih =>
    intro t ht
    rw [pySplit_cons] at ht
    split at ht
    · exact ih t ht
    · rename_i hws
      have hc : isWS c = false := by simpa using hws
      split at ht
      · rcases List.mem_cons.mp ht with rfl | hmem
        · refine ⟨by simp, ?_⟩
          intro x hx
          rcases List.mem_cons.mp hx with rfl | h0
          · exact hc
          · cases h0
        · cases hmem
      · split at ht
        · rcases List.mem_cons.mp ht with rfl | hmem
          · refine ⟨by simp, ?_⟩
            intro x hx
            rcases List.mem_cons.mp hx with rfl | h0
            · exact hc
            · cases h0
          · exact ih t hmem
        · split at ht
          · rename_i t' ts hps
            rcases List.mem_cons.mp ht with rfl | hmem
            · have h1 := ih t' (by rw [hps]; simp)
              refine ⟨by simp, ?_⟩
              intro x hx
              rcases List.mem_cons.mp hx with rfl | h0
              · exact hc
              · exact h1.2 x h0
            · exact ih t (by rw [hps]; simp [hmem])
          · rcases List.mem_cons.mp ht with rfl | hmem
            · refine ⟨by simp, ?_⟩
              intro x hx
              rcases List.mem_cons.mp hx with rfl | h0
              · exact hc
              · cases h0
            · cases hmem

theorem pySplit_word {t : List Char} (ht : t ≠ []) (hf : ∀ c ∈ t, isWS c = false) :
    pySplit t = [t] := by
  induction t with
  | nil => cases ht rfl
  | cons c t' ih =>
    rw [pySplit_cons, if_neg (by simp [hf c (by simp)])]
    cases t' with
    | nil => rfl
    | cons d t'' =>
      rw [ih (by simp) fun x hx => hf x (by simp [hx])]
      simp [hf d (by simp)]

theorem pySplit_word_cons {t : List Char} (rest : List Char) (ht : t ≠ [])
    (hf : ∀ c ∈ t, isWS c = false) :
    pySplit (t ++ ' ' :: rest) = t :: pySplit rest := by
  induction t with
  | nil => cases ht rfl
  | cons c t' ih =>
    rw [List.cons_append, pySplit_cons, if_neg (by simp [hf c (by simp)])]
    cases t' with
    | nil =>
      show (if isWS ' ' = true then [c] :: pySplit (' ' :: rest)
        else match pySplit (' ' :: rest) with
          | t :: ts => (c :: t) :: ts
          | [] => [[c]]) = [c] :: pySplit rest
      rw [if_pos (by decide), pySplit_cons, if_pos (by decide)]
    | cons d t'' =>
      have ih' := ih (by simp) fun x hx => hf x (by simp [hx])
      simp only [List.cons_append] at ih' ⊢
      rw [ih']
      simp [hf d (by simp)]

theorem pySplit_joinSpace : ∀ ts : List (List Char),
    (∀ t ∈ ts, t ≠ [] ∧ ∀ c ∈ t, isWS c = false) → pySplit (joinSpace ts) = ts
  | [], _ => rfl
  | [t], h => pySplit_word (h t (by simp)).1 (h t (by simp)).2
  | t :: t' :: ts, h => by
    show pySplit (t ++ ' ' :: joinSpace (t' :: ts)) = t :: t' :: ts
    rw [pySplit_word_cons _ (h t (by simp)).1 (h t (by simp)).2,
      pySplit_joinSpace (t' :: ts) (fun x hx => h x (by simp [hx]))]

theorem reSplitDelims_nosplit {a : List Char} (h : ∀ c ∈ a, isDelim c = false) :
    reSplitDelims a = [a] := by
  induction a with
  | nil => rfl
  | cons c cs ih =>
    rw [reSplitDelims, if_neg (by simp [h c (by simp)]),
      ih (fun x hx => h x (by simp [hx]))]

theorem reSplitDelims_append {a : List Char} (d : Char) (rest : List Char)
    (h : ∀ c ∈ a, isDelim c = false) (hd : isDelim d = true) :
    reSplitDelims (a ++ d :: rest) = a :: [d] :: reSplitDelims rest := by
  induction a with
  | nil =>
    show reSplitDelims (d :: rest) = [] :: [d] :: reSplitDelims rest
    rw [reSplitDelims, if_pos hd]
  | cons c cs ih =>
    rw [List.cons_append, reSplitDelims, if_neg (by simp [h c (by simp)]),
      ih (fun x hx => h x (by simp [hx]))]

theorem isDelimSeg_eq_false {s : List Char} (h : ∀ c ∈ s, isDelim c = false) :
    isDelimSeg s = false := by
  rcases s with _ | ⟨c, s'⟩
  · rfl
  · simp only [isDelimSeg, Bool.or_eq_false_iff, decide_eq_false_iff_not]
    constructor
    · intro heq
      exact absurd (h '=' (by rw [heq]; simp)) (by decide)
    · intro heq
      exact absurd (h '-' (by rw [heq]; simp)) (by decide)

theorem endsWithDelim_concat (xs : List Char) (ch : Char) :
    endsWithDelim (xs ++ [ch]) = isDelim ch := by
  unfold endsWithDelim
  rw [List.getLast?_concat]

/-! ## C2: boundary-delimiter preservation in the aligner -/

/-- C2: for a reference word made of three non-empty delimiter-free
segments `a=b-c` and three whitespace-separated dependent tokens
`X Y Z`, both aligners return the single space-free word `X=Y-Z`:
one token per segment, re-interleaved with the reference word's
delimiters in place. -/
theorem c2_boundary_delimiters (a b c X Y Z : List Char)
    (ha : a ≠ []) (hb : b ≠ []) (hc : c ≠ [])
    (haf : ∀ ch ∈ a, isDelim ch = false ∧ isWS ch = false)
    (hbf : ∀ ch ∈ b, isDelim ch = false ∧ isWS ch = false)
    (hcf : ∀ ch ∈ c, isDelim ch = false ∧ isWS ch = false)
    (hX : X ≠ []) (hY : Y ≠ []) (hZ : Z ≠ [])
    (hXf : ∀ ch ∈ X, isWS ch = false)
    (hYf : ∀ ch ∈ Y, isWS ch = false)
    (hZf : ∀ ch ∈ Z, isWS ch = false) :
    alignMorphsWithText (a ++ '=' :: (b ++ '-' :: c)) (joinSpace [X, Y, Z]) =
      X ++ '=' :: (Y ++ '-' :: Z) ∧
    alignMorphsWithText1 (a ++ '=' :: (b ++ '-' :: c)) (joinSpace [X, Y, Z]) =
      X ++ '=' :: (Y ++ '-' :: Z) := by
  have hda : isDelimSeg a = false := isDelimSeg_eq_false fun ch hch => (haf ch hch).1
  have hdb : isDelimSeg b = false := isDelimSeg_eq_false fun ch hch => (hbf ch hch).1
  have hdc : isDelimSeg c = false := isDelimSeg_eq_false fun ch hch => (hcf ch hch).1
  have hsa : pyStrip a = a := pyStrip_eq_self fun ch hch => (haf ch hch).2
  have hsb : pyStrip b = b := pyStrip_eq_self fun ch hch => (hbf ch hch).2
  have hsc : pyStrip c = c := pyStrip_eq_self fun ch hch => (hcf ch hch).2
  have htext : a ++ '=' :: (b ++ '-' :: c) ≠ [] := by
    cases a with
    | nil => cases ha rfl
    | cons x xs => simp
  have hmorph : joinSpace [X, Y, Z] ≠ [] := by
    cases X with
    | nil => cases hX rfl
    | cons x xs => simp [joinSpace]
  have hms : pySplit (joinSpace [X, Y, Z]) = [X, Y, Z] := by
    refine pySplit_joinSpace [X, Y, Z] ?_
    intro t ht
    rcases List.mem_cons.mp ht with rfl | ht
    · exact ⟨hX, hXf⟩
    rcases List.mem_cons.mp ht with rfl | ht
    · exact ⟨hY, hYf⟩
    rcases List.mem_cons.mp ht with rfl | ht
    · exact ⟨hZ, hZf⟩
    cases ht
  have htwf : ∀ ch ∈ a ++ '=' :: (b ++ '-' :: c), isWS ch = false := by
    intro ch hch
    rcases List.mem_append.mp hch with h0 | h0
    · exact (haf ch h0).2
    rcases List.mem_cons.mp h0 with rfl | h0
    · decide
    rcases List.mem_append.mp h0 with h1 | h1
    · exact (hbf ch h1).2
    rcases List.mem_cons.mp h1 with rfl | h1
    · decide
    · exact (hcf ch h1).2
  have htw : pySplit (a ++ '=' :: (b ++ '-' :: c)) = [a ++ '=' :: (b ++ '-' :: c)] :=
    pySplit_word htext htwf
  have hsegs : reSplitDelims (a ++ '=' :: (b ++ '-' :: c)) = [a, ['='], b, ['-'], c] := by
    rw [reSplitDelims_append '=' _ (fun ch hch => (haf ch hch).1) (by decide),
      reSplitDelims_append '-' _ (fun ch hch => (hbf ch hch).1) (by decide),
      reSplitDelims_nosplit fun ch hch => (hcf ch hch).1]
  have hdeq : isDelimSeg ['='] = true := by decide
  have hddash : isDelimSeg ['-'] = true := by decide
  have hwm : consumeSegs [a, ['='], b, ['-'], c] [X, Y, Z] = [X, Y, Z] := by
    simp [consumeSegs, hda, hdb, hdc, hdeq, hddash, hsa, hsb, hsc, ha, hb, hc]
  constructor
  · have hre : reassemble [a, ['='], b, ['-'], c] [X, Y, Z] = [X, ['='], Y, ['-'], Z] := by
      simp [reassemble, hda, hdb, hdc, hdeq, hddash, hsa, hsb, hsc, ha, hb, hc]
    rw [alignMorphsWithText, if_neg (by simp [htext, hmorph]), hms]
    rw [if_neg (by simp)]
    rw [htw, alignCore, hsegs, hwm, hre]
    simp [alignCore, joinSpace]
  · have hmwd : mwdGo [a, ['='], b, ['-'], c] [X, Y, Z] [] =
        [X ++ ['='], Y ++ ['-'], Z] := by
      simp [mwdGo, hda, hdb, hdc, hdeq, hddash, hsa, hsb, hsc, ha, hb, hc]
    have hcomb : combineMorphs [X ++ ['='], Y ++ ['-'], Z] [] =
        [X ++ '=' :: (Y ++ '-' :: Z)] := by
      rw [combineMorphs, endsWithDelim_concat, combineMorphs, endsWithDelim_concat]
      simp only [show isDelim '=' = true from by decide,
        show isDelim '-' = true from by decide, if_pos]
      cases hz : endsWithDelim Z with
      | true => simp [combineMorphs]
      | false => simp [combineMorphs, hz]
    rw [alignMorphsWithText1, if_neg (by simp [htext, hmorph]), hms]
    rw [if_neg (by simp)]
    rw [htw, alignCore1, hsegs, hwm, hmwd, hcomb]
    simp [alignCore1, joinSpace]

/-- C2 witness at the literal reference word `a=b-c` and tokens `X Y Z`. -/
theorem c2_witness :
    ("a".toList ≠ [] ∧ "b".toList ≠ [] ∧ "c".toList ≠ [] ∧
      (∀ ch ∈ "a".toList, isDelim ch = false ∧ isWS ch = false) ∧
      (∀ ch ∈ "b".toList, isDelim ch = false ∧ isWS ch = false) ∧
      (∀ ch ∈ "c".toList, isDelim ch = false ∧ isWS ch = false) ∧
      "X".toList ≠ [] ∧ "Y".toList ≠ [] ∧ "Z".toList ≠ [] ∧
      (∀ ch ∈ "X".toList, isWS ch = false) ∧
      (∀ ch ∈ "Y".toList, isWS ch = false) ∧
      (∀ ch ∈ "Z".toList, isWS ch = false)) ∧
    (alignMorphsWithText ("a".toList ++ '=' :: ("b".toList ++ '-' :: "c".toList))
        (joinSpace ["X".toList, "Y".toList, "Z".toList]) =
      "X".toList ++ '=' :: ("Y".toList ++ '-' :: "Z".toList) ∧
    alignMorphsWithText1 ("a".toList ++ '=' :: ("b".toList ++ '-' :: "c".toList))
        (joinSpace ["X".toList, "Y".toList, "Z".toList]) =
      "X".toList ++ '=' :: ("Y".toList ++ '-' :: "Z".toList)) :=
  ⟨⟨by decide, by decide, by decide, by decide, by decide, by decide, by decide,
    by decide, by decide, by decide, by decide, by decide⟩,
   c2_boundary_delimiters _ _ _ _ _ _ (by decide) (by decide) (by decide)
    (by decide) (by decide) (by decide) (by decide) (by decide) (by decide)
    (by decide) (by decide) (by decide)⟩

/-! ## C4: no sentence-final punctuation -/

theorem reSplitPunct_nopunct {l : List Char} (h : ∀ c ∈ l, isPunct c = false) :
    reSplitPunct l = [l] := by
  induction l with
  | nil => rfl
  | cons c cs ih =>
    rw [reSplitPunct]
    have hc : isPunct c = false := h c (by simp)
    simp only [hc, Bool.false_eq_true, if_false]
    rw [ih fun x hx => h x (by simp [hx])]

theorem cleanChars_nopunct {l : List Char} (h : ∀ c ∈ l, isPunct c = false) :
    cleanChars l = l := by
  unfold cleanChars
  rw [List.filter_eq_self]
  intro c hc
  simp [h c hc]

theorem isPunctRun_eq_false {l : List Char} {c : Char} (hc : c ∈ l)
    (h : isPunct c = false) : isPunctRun l = false := by
  unfold isPunctRun
  have : l.all isPunct = false := by
    rw [List.all_eq_false]
    exact ⟨c, hc, by simp [h]⟩
  simp [this]

/-- C4 (amended): for a non-empty baseline text without sentence-final
punctuation and without surrounding whitespace, and dependent strings in
whitespace-normalised form (tokens joined by single spaces), `split`
returns exactly one Sentence carrying the full inputs and the full time
window. -/
theorem c4_no_punctuation (text morph gloss translation : List Char) (s e : Int)
    (hnp : ∀ c ∈ text, isPunct c = false)
    (hts : pyStrip text = text) (htne : text ≠ [])
    (hm : joinSpace (pySplit morph) = morph)
    (hg : joinSpace (pySplit gloss) = gloss) :
    splitSentencesByPunctuation text morph gloss translation s e =
      [⟨text, morph, gloss, translation, s, e⟩] := by
  obtain ⟨c0, hc0⟩ := List.exists_mem_of_ne_nil text htne
  have hpr : isPunctRun text = false := isPunctRun_eq_false hc0 (hnp c0 hc0)
  have htot : cleanChars text = text := cleanChars_nopunct hnp
  have hlen : 0 < (cleanChars text).length := by
    rw [htot]
    exact List.length_pos.mpr htne
  have hmorphs : joinSpace (if 0 < (pySplit morph).length
      then (pySplit morph).drop 0 else []) = morph := by
    cases hmw : pySplit morph with
    | nil => rw [← hm, hmw]; rfl
    | cons t ts => rw [← hm, hmw]; simp
  have hglosses : joinSpace (if 0 < (pySplit gloss).length
      then (pySplit gloss).drop 0 else []) = gloss := by
    cases hgw : pySplit gloss with
    | nil => rw [← hg, hgw]; rfl
    | cons t ts => rw [← hg, hgw]; simp
  have hmk : mkTime s e (cleanChars text).length 0 (cleanChars text).length = (s, e) := by
    by_cases hse : s = e
    · rw [mkTime, if_neg (by simp [hse])]
    · have h2 : Int.tdiv (((cleanChars text).length : Int) * (e - s))
          ((cleanChars text).length : Int) = e - s :=
        Int.mul_tdiv_cancel_left _ (by exact_mod_cast hlen.ne')
      simp only [mkTime]
      rw [if_pos ⟨hlen, hse⟩]
      simp only [Nat.cast_zero, zero_mul, Int.zero_tdiv, add_zero, h2]
      exact Prod.ext_iff.mpr ⟨rfl, by omega⟩
  have hst1 : stepPart (pySplit morph) (pySplit gloss) translation s e
      (cleanChars text).length ⟨[], [], 0, 0, 0⟩ text =
      ⟨[], text, 0, 0, 0⟩ := by
    simp [stepPart, hpr, hts, htne]
  have hst2 : emitLeftover (pySplit morph) (pySplit gloss) translation s e
      (cleanChars text).length ⟨[], text, 0, 0, 0⟩ =
      ⟨[⟨text, morph, gloss, translation, s, e⟩], [], 0, 0,
        (cleanChars text).length⟩ := by
    simp only [emitLeftover, hmk, hts, hmorphs, hglosses, List.nil_append, Nat.zero_add]
  unfold splitSentencesByPunctuation
  rw [reSplitPunct_nopunct hnp]
  simp only [List.foldl_cons, List.foldl_nil]
  rw [hst1]
  rw [if_pos (show pyStrip (SplitSt.mk [] text 0 0 0).cur ≠ [] by
    show pyStrip text ≠ []
    rw [hts]; exact htne)]
  rw [hst2]
  simp

/-- C4 witness at a concrete punctuation-free input. -/
theorem c4_witness :
    ((∀ c ∈ "ab".toList, isPunct c = false) ∧ pyStrip "ab".toList = "ab".toList ∧
      "ab".toList ≠ [] ∧ joinSpace (pySplit "x y".toList) = "x y".toList ∧
      joinSpace (pySplit "g".toList) = "g".toList) ∧
    splitSentencesByPunctuation "ab".toList "x y".toList "g".toList "t".toList 0 7 =
      [⟨"ab".toList, "x y".toList, "g".toList, "t".toList, 0, 7⟩] :=
  ⟨by decide, c4_no_punctuation _ _ _ _ 0 7 (by decide) (by decide) (by decide)
    (by decide) (by decide)⟩

/-! ## C1: time spans of the splitter -/

theorem natMulDiv_add_le (a b d t : Nat) :
    a * d / t + b * d / t ≤ (a + b) * d / t := by
  rcases Nat.eq_zero_or_pos t with rfl | ht
  · simp
  · rw [Nat.le_div_iff_mul_le ht, Nat.add_mul, Nat.add_mul]
    have h1 : a * d / t * t ≤ a * d := Nat.div_mul_le_self _ _
    have h2 : b * d / t * t ≤ b * d := Nat.div_mul_le_self _ _
    omega

theorem natMulDiv_mono {a b : Nat} (d t : Nat) (h : a ≤ b) :
    a * d / t ≤ b * d / t :=
  Nat.div_le_div_right (Nat.mul_le_mul_right d h)

theorem natMulDiv_cap {c t : Nat} (d : Nat) (ht : 0 < t) (h : c ≤ t) :
    c * d / t ≤ d := by
  calc c * d / t ≤ t * d / t := natMulDiv_mono d t h
  _ = d := by rw [Nat.mul_div_cancel_left d ht]

theorem tdiv_natCast (m n : Nat) :
    Int.tdiv (m : Int) (n : Int) = ((m / n : Nat) : Int) := rfl

theorem tdiv_time_eq {s e : Int} (hse : s < e) (c total : Nat) :
    Int.tdiv ((c : Int) * (e - s)) (total : Int) =
      ((c * (e - s).toNat / total : Nat) : Int) := by
  have h1 : (c : Int) * (e - s) = ((c * (e - s).toNat : Nat) : Int) := by
    push_cast [Int.toNat_of_nonneg (by omega : (0 : Int) ≤ e - s)]
    ring
  rw [h1, tdiv_natCast]

theorem mkTime_prop {s e : Int} {total : Nat} (htot : 0 < total) (hse : s < e)
    (c sc : Nat) :
    mkTime s e total c sc =
      (s + ((c * (e - s).toNat / total : Nat) : Int),
       s + ((c * (e - s).toNat / total : Nat) : Int) +
         ((sc * (e - s).toNat / total : Nat) : Int)) := by
  rw [mkTime, if_pos ⟨htot, by omega⟩]
  simp only []
  rw [tdiv_time_eq hse, tdiv_time_eq hse]

theorem reSplitPunct_flatten : ∀ l : List Char, (reSplitPunct l).flatten = l := by
  intro l
  induction l with
  | nil => rfl
  | cons c cs ih =>
    rw [reSplitPunct]
    by_cases hc : isPunct c
    · simp only [hc, if_true]
      split
      · rename_i run rest heq
        rw [heq] at ih
        simp only [List.flatten_cons, List.nil_append] at ih ⊢
        rw [List.cons_append, ih]
      · rename_i heq
        rw [heq] at ih
        have hcs : cs = [] := by simpa using ih.symm
        subst hcs
        simp
      · rename_i heq
        rw [heq] at ih
        have hcs : cs = [] := by simpa using ih.symm
        subst hcs
        simp
      · rename_i x p rest heq
        rw [heq] at ih
        simp only [List.flatten_cons, List.nil_append, List.singleton_append] at ih ⊢
        rw [ih]
    · have hc' : isPunct c = false := by simpa using hc
      simp only [hc', Bool.false_eq_true, if_false]
      split
      · rename_i p rest heq
        rw [heq] at ih
        simp only [List.flatten_cons] at ih ⊢
        rw [List.cons_append, ih]
      · rename_i heq
        rw [heq] at ih
        have hcs : cs = [] := by simpa using ih.symm
        subst hcs
        simp

theorem isPunctRun_props {p : List Char} (h : isPunctRun p = true) :
    p ≠ [] ∧ ∀ c ∈ p, isPunct c = true := by
  unfold isPunctRun at h
  simp only [Bool.and_eq_true, List.all_eq_true, Bool.not_eq_true'] at h
  refine ⟨?_, h.2⟩
  intro hnil
  rw [hnil] at h
  simp at h

theorem isPunct_not_ws {q : Char} (h : isPunct q = true) : isWS q = false := by
  have : (q = '.' ∨ q = '?') ∨ q = '!' := by simpa [isPunct] using h
  rcases this with (rfl | rfl) | rfl <;> decide

theorem cleanChars_append (a b : List Char) :
    cleanChars (a ++ b) = cleanChars a ++ cleanChars b :=
  List.filter_append a b

/-- Appending one proportionally-timed sentence to a well-formed chain
keeps it well-formed. -/
theorem chain_snoc (s e : Int) (total : Nat) (old : List Sentence)
    (c sc : Nat) (x : Sentence)
    (hxs : x.start_time = s + ((c * (e - s).toNat / total : Nat) : Int))
    (hxe : x.end_time = x.start_time + ((sc * (e - s).toNat / total : Nat) : Int))
    (hB : List.Chain' (fun a b => a.end_time ≤ b.start_time) old)
    (hC : ∀ y ∈ old, s ≤ y.start_time ∧ y.start_time ≤ y.end_time)
    (hD : ∀ y, old.getLast? = some y →
      y.end_time ≤ s + ((c * (e - s).toNat / total : Nat) : Int))
    (hE : old = [] → c = 0)
    (hF : ∀ y, old.head? = some y → y.start_time = s) :
    List.Chain' (fun a b => a.end_time ≤ b.start_time) (old ++ [x]) ∧
    (∀ y ∈ old ++ [x], s ≤ y.start_time ∧ y.start_time ≤ y.end_time) ∧
    (∀ y, (old ++ [x]).getLast? = some y →
      y.end_time ≤ s + (((c + sc) * (e - s).toNat / total : Nat) : Int)) ∧
    (∀ y, (old ++ [x]).head? = some y → y.start_time = s) := by
  have hxse : x.start_time ≤ x.end_time := by
    rw [hxe]
    have : (0 : Int) ≤ ((sc * (e - s).toNat / total : Nat) : Int) := Int.natCast_nonneg _
    omega
  have hsx : s ≤ x.start_time := by
    rw [hxs]
    have : (0 : Int) ≤ ((c * (e - s).toNat / total : Nat) : Int) := Int.natCast_nonneg _
    omega
  refine ⟨?_, ?_, ?_, ?_⟩
  · rw [List.chain'_append]
    refine ⟨hB, List.chain'_singleton x, ?_⟩
    intro a ha b hb
    simp only [List.head?_cons, Option.mem_def, Option.some.injEq] at hb
    subst hb
    rw [hxs]
    exact hD a (Option.mem_def.mp ha)
  · intro y hy
    rcases List.mem_append.mp hy with hy | hy
    · exact hC y hy
    · rcases List.mem_singleton.mp hy with rfl
      exact ⟨hsx, hxse⟩
  · intro y hy
    rw [List.getLast?_concat] at hy
    injection hy with hy
    subst hy
    have hadd : ((c * (e - s).toNat / total : Nat) : Int) +
        ((sc * (e - s).toNat / total : Nat) : Int) ≤
        (((c + sc) * (e - s).toNat / total : Nat) : Int) := by
      exact_mod_cast natMulDiv_add_le c sc ((e - s).toNat) total
    rw [hxe, hxs]
    omega
  · intro y hy
    cases old with
    | nil =>
      simp only [List.nil_append, List.head?_cons, Option.some.injEq] at hy
      subst hy
      rw [hxs, hE rfl]
      simp
    | cons o os =>
      simp only [List.cons_append, List.head?_cons, Option.some.injEq] at hy
      rw [← hy]
      exact hF o rfl

theorem emitSentence_inv (mw gw : List (List Char)) (tr : List Char) (s e : Int)
    (total : Nat) (htot : 0 < total) (hse : s < e) (st : SplitSt)
    (hinv : SplitChainInv s e total st) :
    SplitChainInv s e total (emitSentence mw gw tr s e total st) ∧
    (emitSentence mw gw tr s e total st).curChars =
      st.curChars + (cleanChars st.cur).length ∧
    (emitSentence mw gw tr s e total st).cur = [] ∧
    (emitSentence mw gw tr s e total st).sentences ≠ [] := by
  obtain ⟨hB, hC, hD, hE, hF⟩ := hinv
  have hmk := mkTime_prop htot hse st.curChars (cleanChars st.cur).length
  have hsnoc := chain_snoc s e total st.sentences st.curChars
    (cleanChars st.cur).length
    ⟨pyStrip st.cur,
      joinSpace (if st.morphIdx < mw.length
        then (mw.drop st.morphIdx).take (sentMorphCount (cleanChars st.cur)) else []),
      joinSpace (if st.glossIdx < gw.length
        then (gw.drop st.glossIdx).take (sentMorphCount (cleanChars st.cur)) else []),
      tr,
      (mkTime s e total st.curChars (cleanChars st.cur).length).1,
      (mkTime s e total st.curChars (cleanChars st.cur).length).2⟩
    (by rw [hmk]) (by rw [hmk]) hB hC hD hE hF
  obtain ⟨hB', hC', hD', hF'⟩ := hsnoc
  refine ⟨⟨hB', hC', hD', by simp [emitSentence], hF'⟩, rfl, rfl, by simp [emitSentence]⟩

theorem splitFold_inv (mw gw : List (List Char)) (tr : List Char) (s e : Int)
    (total : Nat) (htot : 0 < total) (hse : s < e) :
    ∀ (parts : List (List Char)) (st : SplitSt),
      st.curChars + (cleanChars st.cur).length +
        ((parts.map fun p => (cleanChars p).length).sum) ≤ total →
      SplitChainInv s e total st →
      (parts.foldl (stepPart mw gw tr s e total) st).curChars +
        (cleanChars (parts.foldl (stepPart mw gw tr s e total) st).cur).length
        ≤ total ∧
      SplitChainInv s e total (parts.foldl (stepPart mw gw tr s e total) st) ∧
      (st.sentences ≠ [] →
        (parts.foldl (stepPart mw gw tr s e total) st).sentences ≠ []) ∧
      (∀ p ∈ parts, isPunctRun p = true →
        (parts.foldl (stepPart mw gw tr s e total) st).sentences ≠ []) := by
  intro parts
  induction parts with
  | nil =>
    intro st hA hinv
    simp only [List.foldl_nil]
    refine ⟨by simp at hA; omega, hinv, fun h => h, ?_⟩
    intro p hp
    cases hp
  | cons part rest ih =>
    intro st hA hinv
    simp only [List.foldl_cons]
    have hAin : st.curChars + (cleanChars st.cur).length +
        (cleanChars part).length +
        ((rest.map fun p => (cleanChars p).length).sum) ≤ total := by
      simp only [List.map_cons, List.sum_cons] at hA
      omega
    by_cases hpr : isPunctRun part = true
    · -- punctuation run: the buffer is flushed and a sentence is emitted
      obtain ⟨hpne, hpall⟩ := isPunctRun_props hpr
      obtain ⟨q, hq⟩ := List.exists_mem_of_ne_nil part hpne
      have hcond : pyStrip (st.cur ++ part) ≠ [] :=
        pyStrip_ne_nil (List.mem_append.mpr (Or.inr hq)) (isPunct_not_ws (hpall q hq))
      have hstep : stepPart mw gw tr s e total st part =
          emitSentence mw gw tr s e total { st with cur := st.cur ++ part } := by
        rw [stepPart, if_pos hpr]
        simp only [hcond, if_pos]
        simp [hcond]
      rw [hstep]
      have hinv'' : SplitChainInv s e total { st with cur := st.cur ++ part } := by
        obtain ⟨hB, hC, hD, hE, hF⟩ := hinv
        exact ⟨hB, hC, hD, hE, hF⟩
      have hemit := emitSentence_inv mw gw tr s e total htot hse
        { st with cur := st.cur ++ part } hinv''
      obtain ⟨hinv', hcc, hcur, hne⟩ := hemit
      have hccA : (emitSentence mw gw tr s e total { st with cur := st.cur ++ part }).curChars +
          (cleanChars (emitSentence mw gw tr s e total
            { st with cur := st.cur ++ part }).cur).length +
          ((rest.map fun p => (cleanChars p).length).sum) ≤ total := by
        rw [hcc, hcur]
        simp only [cleanChars_append, List.length_append]
        simp only [cleanChars] at hAin ⊢
        simp
        omega
      have := ih (emitSentence mw gw tr s e total { st with cur := st.cur ++ part })
        hccA hinv'
      refine ⟨this.1, this.2.1, fun _ => this.2.2.1 hne, ?_⟩
      intro p hp hprp
      rcases List.mem_cons.mp hp with rfl | hp
      · exact this.2.2.1 hne
      · exact this.2.2.2 p hp hprp
    · -- not a punctuation run
      have hstep0 : stepPart mw gw tr s e total st part =
          if pyStrip part ≠ [] then { st with cur := st.cur ++ part } else st := by
        rw [stepPart]
        simp [hpr]
      by_cases hps : pyStrip part ≠ []
      · have hstep : stepPart mw gw tr s e total st part =
            { st with cur := st.cur ++ part } := by rw [hstep0, if_pos hps]
        rw [hstep]
        have hinv'' : SplitChainInv s e total { st with cur := st.cur ++ part } := by
          obtain ⟨hB, hC, hD, hE, hF⟩ := hinv
          exact ⟨hB, hC, hD, hE, hF⟩
        have hAin' : ({ st with cur := st.cur ++ part } : SplitSt).curChars +
            (cleanChars ({ st with cur := st.cur ++ part } : SplitSt).cur).length +
            ((rest.map fun p => (cleanChars p).length).sum) ≤ total := by
          simp only [cleanChars_append, List.length_append]
          omega
        have := ih { st with cur := st.cur ++ part } hAin' hinv''
        refine ⟨this.1, this.2.1, fun h => this.2.2.1 h, ?_⟩
        intro p hp hprp
        rcases List.mem_cons.mp hp with rfl | hp
        · exact absurd hprp hpr
        · exact this.2.2.2 p hp hprp
      · have hstep : stepPart mw gw tr s e total st part = st := by
          rw [hstep0, if_neg hps]
        rw [hstep]
        have hAin' : st.curChars + (cleanChars st.cur).length +
            ((rest.map fun p => (cleanChars p).length).sum) ≤ total := by omega
        have := ih st hAin' hinv
        refine ⟨this.1, this.2.1, this.2.2.1, ?_⟩
        intro p hp hprp
        rcases List.mem_cons.mp hp with rfl | hp
        · exact absurd hprp hpr
        · exact this.2.2.2 p hp hprp

theorem emitLeftover_inv (mw gw : List (List Char)) (tr : List Char) (s e : Int)
    (total : Nat) (htot : 0 < total) (hse : s < e) (st : SplitSt)
    (hinv : SplitChainInv s e total st) :
    SplitChainInv s e total (emitLeftover mw gw tr s e total st) ∧
    (emitLeftover mw gw tr s e total st).curChars =
      st.curChars + (cleanChars st.cur).length ∧
    (emitLeftover mw gw tr s e total st).sentences ≠ [] := by
  obtain ⟨hB, hC, hD, hE, hF⟩ := hinv
  have hmk := mkTime_prop htot hse st.curChars (cleanChars st.cur).length
  have hsnoc := chain_snoc s e total st.sentences st.curChars
    (cleanChars st.cur).length
    ⟨pyStrip st.cur,
      joinSpace (if st.morphIdx < mw.length then mw.drop st.morphIdx else []),
      joinSpace (if st.glossIdx < gw.length then gw.drop st.glossIdx else []),
      tr,
      (mkTime s e total st.curChars (cleanChars st.cur).length).1,
      (mkTime s e total st.curChars (cleanChars st.cur).length).2⟩
    (by rw [hmk]) (by rw [hmk]) hB hC hD hE hF
  obtain ⟨hB', hC', hD', hF'⟩ := hsnoc
  exact ⟨⟨hB', hC', hD', by simp [emitLeftover], hF'⟩, rfl, by simp [emitLeftover]⟩

theorem getLast?_mem {α : Type} : ∀ {l : List α} {x : α}, l.getLast? = some x → x ∈ l := by
  intro l
  induction l with
  | nil => intro x hx; cases hx
  | cons a l ih =>
    intro x hx
    cases l with
    | nil =>
      simp only [List.getLast?_singleton, Option.some.injEq] at hx
      simp [hx]
    | cons b l' =>
      rw [List.getLast?_cons_cons] at hx
      exact List.mem_cons.mpr (Or.inr (ih hx))

theorem head?_mem {α : Type} {l : List α} {x : α} (h : l.head? = some x) : x ∈ l := by
  cases l with
  | nil => cases h
  | cons a l' =>
    simp only [List.head?_cons, Option.some.injEq] at h
    simp [h]

theorem chain_starts : ∀ {L : List Sentence},
    List.Chain' (fun a b => a.end_time ≤ b.start_time) L →
    (∀ y ∈ L, y.start_time ≤ y.end_time) →
    List.Chain' (fun a b => a.start_time ≤ b.start_time) L := by
  intro L
  induction L with
  | nil => intro _ _; exact List.chain'_nil
  | cons x xs ih =>
    intro hB hC
    cases xs with
    | nil => exact List.chain'_singleton x
    | cons z zs =>
      rw [List.chain'_cons] at hB ⊢
      refine ⟨?_, ih hB.2 fun y hy => hC y (by simp [hy])⟩
      have h1 := hC x (by simp)
      omega

theorem chain_end_bound {M : Int} : ∀ {L : List Sentence},
    List.Chain' (fun a b => a.end_time ≤ b.start_time) L →
    (∀ y ∈ L, y.start_time ≤ y.end_time) →
    (∀ y, L.getLast? = some y → y.end_time ≤ M) →
    ∀ y ∈ L, y.end_time ≤ M := by
  intro L
  induction L with
  | nil => intro _ _ _ y hy; cases hy
  | cons x xs ih =>
    intro hB hC hD y hy
    cases xs with
    | nil =>
      rcases List.mem_singleton.mp hy with rfl
      exact hD y (by simp)
    | cons z zs =>
      rw [List.chain'_cons] at hB
      have hzs := ih hB.2 (fun w hw => hC w (by simp [hw]))
        (fun w hw => hD w (by rw [List.getLast?_cons_cons]; exact hw))
      rcases List.mem_cons.mp hy with rfl | hy
      · have hz : z.end_time ≤ M := hzs z (by simp)
        have := hC z (by simp)
        omega
      · exact hzs y hy

theorem all_start_chain {s : Int} : ∀ {L : List Sentence},
    (∀ x ∈ L, x.start_time = s) →
    List.Chain' (fun a b => a.start_time ≤ b.start_time) L := by
  intro L
  induction L with
  | nil => intro _; exact List.chain'_nil
  | cons x xs ih =>
    intro h
    cases xs with
    | nil => exact List.chain'_singleton x
    | cons z zs =>
      rw [List.chain'_cons]
      refine ⟨?_, ih fun y hy => h y (by simp [hy])⟩
      rw [h x (by simp), h z (by simp)]

theorem mkTime_else {s e : Int} {total : Nat} (h : ¬(0 < total ∧ s ≠ e))
    (c sc : Nat) : mkTime s e total c sc = (s, e) := by
  rw [mkTime, if_neg h]

theorem splitElse_fold (mw gw : List (List Char)) (tr : List Char) (s e : Int)
    (total : Nat) (hcase : ¬(0 < total ∧ s ≠ e)) :
    ∀ (parts : List (List Char)) (st : SplitSt),
      (∀ x ∈ st.sentences, x.start_time = s ∧ x.end_time = e) →
      ∀ x ∈ (parts.foldl (stepPart mw gw tr s e total) st).sentences,
        x.start_time = s ∧ x.end_time = e := by
  intro parts
  induction parts with
  | nil => intro st h; simpa using h
  | cons part rest ih =>
    intro st h
    simp only [List.foldl_cons]
    refine ih _ ?_
    unfold stepPart
    split
    · simp only []
      split
      · intro x hx
        simp only [emitSentence, mkTime_else hcase] at hx
        rcases List.mem_append.mp hx with hx | hx
        · exact h x hx
        · rcases List.mem_singleton.mp hx with rfl
          exact ⟨rfl, rfl⟩
      · exact h
    · split
      · exact h
      · exact h

theorem emitLeftover_times (mw gw : List (List Char)) (tr : List Char) (s e : Int)
    (total : Nat) (hcase : ¬(0 < total ∧ s ≠ e)) (st : SplitSt)
    (h : ∀ x ∈ st.sentences, x.start_time = s ∧ x.end_time = e) :
    ∀ x ∈ (emitLeftover mw gw tr s e total st).sentences,
      x.start_time = s ∧ x.end_time = e := by
  intro x hx
  simp only [emitLeftover, mkTime_else hcase] at hx
  rcases List.mem_append.mp hx with hx | hx
  · exact h x hx
  · rcases List.mem_singleton.mp hx with rfl
    exact ⟨rfl, rfl⟩

/-- Per-annotation summary: for `start_time ≤ end_time`, the splitter's
output has nondecreasing start times and all spans inside the window. -/
theorem split_bounds (text morph gloss tr : List Char) (s e : Int) (hse : s ≤ e) :
    List.Chain' (fun x y => x.start_time ≤ y.start_time)
      (splitSentencesByPunctuation text morph gloss tr s e) ∧
    ∀ x ∈ splitSentencesByPunctuation text morph gloss tr s e,
      s ≤ x.start_time ∧ x.start_time ≤ x.end_time ∧ x.end_time ≤ e := by
  by_cases hcase : 0 < (cleanChars text).length ∧ s ≠ e
  · obtain ⟨htot, hne⟩ := hcase
    have hslt : s < e := lt_of_le_of_ne hse hne
    have hsum : (((reSplitPunct text).map fun p => (cleanChars p).length).sum) =
        (cleanChars text).length := by
      conv_rhs => rw [← reSplitPunct_flatten text]
      generalize reSplitPunct text = ps
      induction ps with
      | nil => simp [cleanChars]
      | cons p ps ih => simp [List.flatten_cons, cleanChars_append, ih]
    have hinv0 : SplitChainInv s e (cleanChars text).length ⟨[], [], 0, 0, 0⟩ := by
      refine ⟨List.chain'_nil, ?_, ?_, fun _ => rfl, ?_⟩
      · intro y hy; cases hy
      · intro y hy; cases hy
      · intro y hy; cases hy
    have hA0 : (⟨[], [], 0, 0, 0⟩ : SplitSt).curChars +
        (cleanChars (⟨[], [], 0, 0, 0⟩ : SplitSt).cur).length +
        (((reSplitPunct text).map fun p => (cleanChars p).length).sum) ≤
        (cleanChars text).length := by
      rw [hsum]
      simp [cleanChars]
    have hfold := splitFold_inv (pySplit morph) (pySplit gloss) tr s e
      (cleanChars text).length htot hslt (reSplitPunct text) ⟨[], [], 0, 0, 0⟩ hA0 hinv0
    obtain ⟨hA', hinv', -, -⟩ := hfold
    unfold splitSentencesByPunctuation
    simp only []
    set st1 := (reSplitPunct text).foldl
      (stepPart (pySplit morph) (pySplit gloss) tr s e (cleanChars text).length)
      ⟨[], [], 0, 0, 0⟩ with hst1
    have hfin : ∀ (st2 : SplitSt), SplitChainInv s e (cleanChars text).length st2 →
        st2.curChars ≤ (cleanChars text).length →
        List.Chain' (fun x y => x.start_time ≤ y.start_time) st2.sentences ∧
        ∀ x ∈ st2.sentences,
          s ≤ x.start_time ∧ x.start_time ≤ x.end_time ∧ x.end_time ≤ e := by
      intro st2 hinv2 hcap
      obtain ⟨hB, hC, hD, hE, hF⟩ := hinv2
      have hlast : ∀ y, st2.sentences.getLast? = some y → y.end_time ≤ e := by
        intro y hy
        have := hD y hy
        have hdiv : (st2.curChars * (e - s).toNat /
            (cleanChars text).length : Nat) ≤ (e - s).toNat :=
          natMulDiv_cap _ htot hcap
        have hcast : ((st2.curChars * (e - s).toNat /
            (cleanChars text).length : Nat) : Int) ≤ ((e - s).toNat : Int) :=
          Int.ofNat_le.mpr hdiv
        have htn : ((e - s).toNat : Int) = e - s := Int.toNat_of_nonneg (by omega)
        omega
      have hCend := chain_end_bound hB (fun y hy => (hC y hy).2) hlast
      refine ⟨chain_starts hB fun y hy => (hC y hy).2, ?_⟩
      intro x hx
      exact ⟨(hC x hx).1, (hC x hx).2, hCend x hx⟩
    by_cases hlo : pyStrip st1.cur ≠ []
    · rw [if_pos hlo]
      have hL := emitLeftover_inv (pySplit morph) (pySplit gloss) tr s e
        (cleanChars text).length htot hslt st1 hinv'
      obtain ⟨hinv2, hcc, hneL⟩ := hL
      rw [if_neg hneL]
      exact hfin _ hinv2 (by rw [hcc]; omega)
    · rw [if_neg hlo]
      by_cases hemp : st1.sentences = []
      · rw [if_pos hemp]
        refine ⟨List.chain'_singleton _, ?_⟩
        intro x hx
        rcases List.mem_singleton.mp hx with rfl
        exact ⟨le_refl s, hse, le_refl e⟩
      · rw [if_neg hemp]
        exact hfin st1 hinv' (by omega)
  · -- degenerate timing: every sentence carries the whole window
    have hall : ∀ x ∈ splitSentencesByPunctuation text morph gloss tr s e,
        x.start_time = s ∧ x.end_time = e := by
      unfold splitSentencesByPunctuation
      simp only []
      set st1 := (reSplitPunct text).foldl
        (stepPart (pySplit morph) (pySplit gloss) tr s e (cleanChars text).length)
        ⟨[], [], 0, 0, 0⟩ with hst1
      have h1 : ∀ x ∈ st1.sentences, x.start_time = s ∧ x.end_time = e :=
        splitElse_fold (pySplit morph) (pySplit gloss) tr s e
          (cleanChars text).length hcase (reSplitPunct text) ⟨[], [], 0, 0, 0⟩
          (by intro x hx; cases hx)
      by_cases hlo : pyStrip st1.cur ≠ []
      · rw [if_pos hlo]
        have h2 := emitLeftover_times (pySplit morph) (pySplit gloss) tr s e
          (cleanChars text).length hcase st1 h1
        split
        · intro x hx
          rcases List.mem_singleton.mp hx with rfl
          exact ⟨rfl, rfl⟩
        · exact h2
      · rw [if_neg hlo]
        split
        · intro x hx
          rcases List.mem_singleton.mp hx with rfl
          exact ⟨rfl, rfl⟩
        · exact h1
    refine ⟨all_start_chain fun x hx => (hall x hx).1, ?_⟩
    intro x hx
    obtain ⟨h1, h2⟩ := hall x hx
    exact ⟨by omega, by omega, by omega⟩

theorem annChain_le_all : ∀ (l : List Annotation) (a : Annotation),
    (∀ x ∈ a :: l, x.start_time ≤ x.end_time) →
    List.Chain' (fun x y => x.end_time ≤ y.start_time) (a :: l) →
    ∀ b ∈ l, a.end_time ≤ b.start_time := by
  intro l
  induction l with
  | nil => intro a _ _ b hb; cases hb
  | cons z zs ih =>
    intro a hle hch b hb
    rw [List.chain'_cons] at hch
    rcases List.mem_cons.mp hb with rfl | hb
    · exact hch.1
    · have hz := ih z (fun x hx => hle x (by simp at hx ⊢; tauto)) hch.2 b hb
      have h1 := hle z (by simp)
      omega

theorem annChain_pairwise : ∀ (l : List Annotation),
    (∀ x ∈ l, x.start_time ≤ x.end_time) →
    List.Chain' (fun x y => x.end_time ≤ y.start_time) l →
    List.Pairwise (fun x y => x.end_time ≤ y.start_time) l := by
  intro l
  induction l with
  | nil => intro _ _; exact List.Pairwise.nil
  | cons a l ih =>
    intro hle hch
    refine List.pairwise_cons.mpr ⟨annChain_le_all l a hle hch, ?_⟩
    refine ih (fun x hx => hle x (by simp [hx])) ?_
    cases l with
    | nil => exact List.chain'_nil
    | cons z zs => exact (List.chain'_cons.mp hch).2

theorem flatMap_sorted (g : Annotation → List Sentence)
    (hg : ∀ a : Annotation, a.start_time ≤ a.end_time →
      List.Chain' (fun x y => x.start_time ≤ y.start_time) (g a) ∧
      ∀ x ∈ g a, a.start_time ≤ x.start_time ∧ x.start_time ≤ x.end_time ∧
        x.end_time ≤ a.end_time) :
    ∀ anns : List Annotation, (∀ a ∈ anns, a.start_time ≤ a.end_time) →
      List.Pairwise (fun a b => a.end_time ≤ b.start_time) anns →
      List.Chain' (fun x y => x.start_time ≤ y.start_time) (anns.flatMap g) ∧
      ∀ y ∈ anns.flatMap g, ∃ a ∈ anns, a.start_time ≤ y.start_time ∧
        y.end_time ≤ a.end_time := by
  intro anns
  induction anns with
  | nil => intro _ _; exact ⟨List.chain'_nil, by intro y hy; cases hy⟩
  | cons a rest ih =>
    intro hle hpw
    rw [List.pairwise_cons] at hpw
    have ha := hg a (hle a (by simp))
    have hrest := ih (fun x hx => hle x (by simp [hx])) hpw.2
    rw [List.flatMap_cons]
    constructor
    · rw [List.chain'_append]
      refine ⟨ha.1, hrest.1, ?_⟩
      intro x hx y hy
      have hxm : x ∈ g a := getLast?_mem (Option.mem_def.mp hx)
      have hym : y ∈ rest.flatMap g := head?_mem (Option.mem_def.mp hy)
      obtain ⟨b, hb, hby, -⟩ := hrest.2 y hym
      have hab : a.end_time ≤ b.start_time := hpw.1 b hb
      have hxa := ha.2 x hxm
      omega
    · intro y hy
      rcases List.mem_append.mp hy with hy | hy
      · have := ha.2 y hy
        exact ⟨a, by simp, this.1, this.2.2⟩
      · obtain ⟨b, hb, h1, h2⟩ := hrest.2 y hy
        exact ⟨b, by simp [hb], h1, h2⟩

/-- C6 (amended): when the baseline annotations' spans do not overlap in
order (each annotation has `start_time ≤ end_time` and each annotation's
`end_time` is at most the next one's `start_time`), the extracted
Sentence list is nondecreasing in `start_time`. -/
theorem c6_extract_sorted (textTier morphTier glossTier translationTier : List Annotation)
    (h1 : ∀ a ∈ textTier, a.start_time ≤ a.end_time)
    (h2 : List.Chain' (fun a b => a.end_time ≤ b.start_time) textTier) :
    nondecreasingStarts
      (extractSentences textTier morphTier glossTier translationTier) := by
  have hpw := annChain_pairwise textTier h1 h2
  have hpwf : List.Pairwise (fun a b => a.end_time ≤ b.start_time)
      (textTier.filter (fun a => a.value ≠ [])) :=
    hpw.sublist (List.filter_sublist _)
  have h1f : ∀ a ∈ textTier.filter (fun a => a.value ≠ []),
      a.start_time ≤ a.end_time :=
    fun a ha => h1 a (List.mem_of_mem_filter ha)
  have := flatMap_sorted
    (fun a => splitSentencesByPunctuation a.value
      ( findOverlappingAnnotation morphTier a.start_time a.end_time)
      ( findOverlappingAnnotation glossTier a.start_time a.end_time)
      ( findOverlappingAnnotation translationTier a.start_time a.end_time)
      a.start_time a.end_time)
    (fun a hae => by
      have hb := split_bounds a.value
        ( findOverlappingAnnotation morphTier a.start_time a.end_time)
        ( findOverlappingAnnotation glossTier a.start_time a.end_time)
        ( findOverlappingAnnotation translationTier a.start_time a.end_time)
        a.start_time a.end_time hae
      exact ⟨hb.1, hb.2⟩)
    (textTier.filter (fun a => a.value ≠ [])) h1f hpwf
  exact this.1

/-- C6 witness at two non-overlapping annotations. -/
theorem c6_witness :
    ((∀ a ∈ [ Annotation.mk 0 400 ['a'], Annotation.mk 500 600 ['b']],
      a.start_time ≤ a.end_time) ∧
     List.Chain' (fun a b => a.end_time ≤ b.start_time)
      [ Annotation.mk 0 400 ['a'], Annotation.mk 500 600 ['b']]) ∧
    nondecreasingStarts (extractSentences
      [ Annotation.mk 0 400 ['a'], Annotation.mk 500 600 ['b']] [] [] []) :=
  ⟨⟨by decide, by simp [List.chain'_cons, List.chain'_singleton]⟩,
   c6_extract_sorted [ Annotation.mk 0 400 ['a'], Annotation.mk 500 600 ['b']]
     [] [] [] (by decide)
     (by simp [List.chain'_cons, List.chain'_singleton])⟩

/-! ## C7: tipa round trip -/

theorem replaceAllGo_nil (pat rep : List Char) (f : Nat) :
    replaceAllGo pat rep f [] = [] := by
  cases f <;> rfl

theorem replaceAllGo_canon (pat rep : List Char) (hp : pat ≠ []) :
    ∀ (n : Nat) (s : List Char) (f : Nat), s.length ≤ n → s.length ≤ f →
      replaceAllGo pat rep f s = replaceAllGo pat rep s.length s := by
  intro n
  induction n with
  | zero =>
    intro s f hn _
    have : s = [] := List.length_eq_zero.mp (Nat.le_zero.mp hn)
    subst this
    rw [replaceAllGo_nil, replaceAllGo_nil]
  | succ n ih =>
    intro s f hn hf
    cases s with
    | nil => rw [replaceAllGo_nil, replaceAllGo_nil]
    | cons c cs =>
      cases f with
      | zero => simp at hf
      | succ f0 =>
        have hlen : cs.length + 1 ≤ n + 1 := by simpa using hn
        have hcc : (c :: cs).length = cs.length + 1 := by simp
        have hdrop : ((c :: cs).drop pat.length).length ≤ cs.length := by
          rw [List.length_drop]
          have : 1 ≤ pat.length := by
            cases pat with
            | nil => cases hp rfl
            | cons _ _ => simp
          simp only [List.length_cons]
          omega
        show replaceAllGo pat rep (f0 + 1) (c :: cs) =
          replaceAllGo pat rep (cs.length + 1) (c :: cs)
        have hf0 : cs.length ≤ f0 := by
          rw [hcc] at hf
          omega
        rw [replaceAllGo, replaceAllGo]
        by_cases hsw : startsW pat (c :: cs) = true
        · rw [if_pos hsw, if_pos hsw]
          have h1 := ih ((c :: cs).drop pat.length) f0 (by omega) (by omega)
          have h2 := ih ((c :: cs).drop pat.length) cs.length (by omega) (by omega)
          rw [h1, h2]
        · rw [if_neg hsw, if_neg hsw]
          have h1 := ih cs f0 (by omega) (by omega)
          have h2 := ih cs cs.length (by omega) (by omega)
          rw [h1, h2]

theorem replaceAllGo_fuel (pat rep : List Char) (hp : pat ≠ []) (f f' : Nat)
    (s : List Char) (h1 : s.length ≤ f) (h2 : s.length ≤ f') :
    replaceAllGo pat rep f s = replaceAllGo pat rep f' s := by
  rw [replaceAllGo_canon pat rep hp s.length s f (le_refl _) h1,
    replaceAllGo_canon pat rep hp s.length s f' (le_refl _) h2]

theorem startsW_append_self : ∀ (P t : List Char), startsW P (P ++ t) = true := by
  intro P
  induction P with
  | nil => intro t; rfl
  | cons p P' ih =>
    intro t
    simp [startsW, ih t]

theorem replaceAllGo_match (p : Char) (P' rep t : List Char) :
    replaceAllGo (p :: P') rep (((p :: P') ++ t).length) ((p :: P') ++ t) =
      rep ++ replaceAllGo (p :: P') rep t.length t := by
  have h1 : (p :: P') ++ t = p :: (P' ++ t) := rfl
  have h2 : ((p :: P') ++ t).length = (P' ++ t).length + 1 := by simp
  rw [h1] at h2
  rw [h1, h2, replaceAllGo]
  have hcond : startsW (p :: P') (p :: (P' ++ t)) = true :=
    startsW_append_self (p :: P') t
  rw [if_pos hcond]
  have h3 : (p :: (P' ++ t)).drop (p :: P').length = t := List.drop_left (p :: P') t
  rw [h3]
  have hfu : t.length ≤ (P' ++ t).length := by simp
  rw [replaceAllGo_fuel (p :: P') rep (by simp) _ _ t hfu (le_refl _)]

theorem replaceAll_match (P rep t : List Char) (hp : P ≠ []) :
    replaceAll P rep (P ++ t) = rep ++ replaceAll P rep t := by
  obtain ⟨p, P', rfl⟩ : ∃ p P', P = p :: P' := by
    cases P with
    | nil => cases hp rfl
    | cons a b => exact ⟨a, b, rfl⟩
  unfold replaceAll
  exact replaceAllGo_match p P' rep t

theorem replaceAll_skip (p : Char) (P' rep : List Char) :
    ∀ (B t : List Char),
      (B = [] ∨ startsW (p :: P') (B ++ t) = false) →
      (∀ c ∈ B.tail, c ≠ p) →
      replaceAll (p :: P') rep (B ++ t) = B ++ replaceAll (p :: P') rep t := by
  intro B
  induction B with
  | nil => intro t _ _; simp
  | cons b B' ih =>
    intro t h0 htail
    have hsw : startsW (p :: P') ((b :: B') ++ t) = false := by
      rcases h0 with h0 | h0
      · cases h0
      · exact h0
    unfold replaceAll
    have hlen : ((b :: B') ++ t).length = (B' ++ t).length + 1 := by simp
    rw [hlen, List.cons_append, replaceAllGo]
    rw [← List.cons_append, hsw]
    simp only [Bool.false_eq_true, if_false]
    have hrec : replaceAllGo (p :: P') rep ((B' ++ t).length) (B' ++ t) =
        B' ++ replaceAll (p :: P') rep t := by
      have := ih t ?_ ?_
      · unfold replaceAll at this
        exact this
      · cases B' with
        | nil => exact Or.inl rfl
        | cons x B'' =>
          refine Or.inr ?_
          have hx : x ≠ p := htail x (by simp)
          simp only [List.cons_append, startsW, Bool.and_eq_true, decide_eq_true_eq]
          simp only [Bool.and_eq_false_iff, decide_eq_false_iff_not]
          left
          exact fun h => hx h.symm
      · intro c hc
        refine htail c ?_
        cases B' with
        | nil => cases hc
        | cons x B'' => simp at hc ⊢; tauto
    rw [hrec]
    rfl

theorem startsW_append_cases : ∀ (B P t : List Char),
    startsW P (B ++ t) = true → startsW P B = true ∨ startsW B P = true := by
  intro B
  induction B with
  | nil => intro P t _; exact Or.inr rfl
  | cons b B' ih =>
    intro P t h
    cases P with
    | nil => exact Or.inl rfl
    | cons p P' =>
      simp only [List.cons_append, startsW, Bool.and_eq_true, decide_eq_true_eq] at h
      obtain ⟨rfl, h2⟩ := h
      rcases ih P' t h2 with h3 | h3
      · exact Or.inl (by simp [startsW, h3])
      · exact Or.inr (by simp [startsW, h3])


theorem replaceAll_goodBlock (P : List Char) (r : Char) (B t : List Char)
    (hgb : goodBlockb P B = true) (hne : B ≠ P) :
    replaceAll P [r] (B ++ t) = B ++ replaceAll P [r] t := by
  cases P with
  | nil => simp [goodBlockb] at hgb
  | cons p P' =>
    have h : (!B.isEmpty && (B == p :: P' ||
        (!startsW (p :: P') B && !startsW B (p :: P') && !(B.tail.contains p)))) = true := hgb
    rw [Bool.and_eq_true, Bool.or_eq_true] at h
    obtain ⟨hB, hcase⟩ := h
    rcases hcase with hcase | hcase
    · exact absurd (by simpa using hcase) hne
    · rw [Bool.and_eq_true, Bool.and_eq_true] at hcase
      obtain ⟨⟨h1, h2⟩, h3⟩ := hcase
      have hsw1 : startsW (p :: P') B = false := by
        revert h1; cases startsW (p :: P') B <;> simp
      have hsw2 : startsW B (p :: P') = false := by
        revert h2; cases startsW B (p :: P') <;> simp
      have hmem : ¬ p ∈ B.tail := by
        have h3' : B.tail.contains p = false := by
          revert h3; cases B.tail.contains p <;> simp
        simpa using h3'
      have h0 : startsW (p :: P') (B ++ t) = false := by
        by_contra hx
        have hx' : startsW (p :: P') (B ++ t) = true := by
          revert hx; cases startsW (p :: P') (B ++ t) <;> simp
        rcases startsW_append_cases B (p :: P') t hx' with hc | hc
        · rw [hsw1] at hc; cases hc
        · rw [hsw2] at hc; cases hc
      exact replaceAll_skip p P' [r] B t (Or.inr h0)
        (fun c hc hcp => hmem (hcp ▸ hc))

theorem replaceAll_blocks (P : List Char) (r : Char) :
    ∀ (Bs : List (List Char)),
      (∀ B ∈ Bs, goodBlockb P B = true) →
      replaceAll P [r] (Bs.flatMap id) =
        Bs.flatMap (fun B => blockStep B (P, r)) := by
  intro Bs
  induction Bs with
  | nil => intro _; rfl
  | cons B Bs ih =>
    intro hall
    have hB := hall B (by simp)
    have hrest : ∀ B' ∈ Bs, goodBlockb P B' = true :=
      fun B' h => hall B' (by simp [h])
    have hp : P ≠ [] := by
      intro h; subst h; simp [goodBlockb] at hB
    by_cases heq : B = P
    · subst heq
      simp only [List.flatMap_cons, id]
      rw [replaceAll_match B [r] (Bs.flatMap id) hp, ih hrest]
      simp [blockStep]
    · simp only [List.flatMap_cons, id]
      rw [replaceAll_goodBlock P r B (Bs.flatMap id) hB heq, ih hrest]
      simp [blockStep, heq]

theorem flatMap_congr_mem {α β : Type} (l : List α) (f g : α → List β)
    (h : ∀ x ∈ l, f x = g x) : l.flatMap f = l.flatMap g := by
  induction l with
  | nil => rfl
  | cons x xs ih =>
    simp only [List.flatMap_cons]
    rw [h x (by simp), ih (fun y hy => h y (by simp [hy]))]

theorem inverse_blocks :
    ∀ (tbl : List (List Char × Char)) (Bs : List (List Char)),
      (∀ B ∈ Bs, blockOKb tbl B = true) →
      tbl.foldl (fun s e => replaceAll e.1 [e.2] s) (Bs.flatMap id) =
        Bs.flatMap (fun B => blockFold B tbl) := by
  intro tbl
  induction tbl with
  | nil =>
    intro Bs _
    simp only [List.foldl_nil]
    exact (flatMap_congr_mem Bs id (fun B => blockFold B []) (fun B _ => rfl))
  | cons e tbl ih =>
    intro Bs hall
    simp only [List.foldl_cons]
    have hstep : replaceAll e.1 [e.2] (Bs.flatMap id) =
        Bs.flatMap (fun B => blockStep B (e.1, e.2)) := by
      refine replaceAll_blocks e.1 e.2 Bs (fun B hB => ?_)
      have := hall B hB
      rw [blockOKb, Bool.and_eq_true] at this
      exact this.1
    rw [hstep]
    have hmap : Bs.flatMap (fun B => blockStep B (e.1, e.2)) =
        (Bs.map (fun B => blockStep B (e.1, e.2))).flatMap id := by
      simp [List.flatMap_map]
    rw [hmap]
    have hrest : ∀ B' ∈ Bs.map (fun B => blockStep B (e.1, e.2)),
        blockOKb tbl B' = true := by
      intro B' hB'
      obtain ⟨B, hB, rfl⟩ := List.mem_map.mp hB'
      have := hall B hB
      rw [blockOKb, Bool.and_eq_true] at this
      have h2 := this.2
      have : blockStep B (e.1, e.2) = blockStep B e := by
        cases e; rfl
      rw [this]
      exact h2
    rw [ih _ hrest]
    rw [List.flatMap_map]
    refine flatMap_congr_mem Bs _ _ (fun B _ => ?_)
    show blockFold (blockStep B (e.1, e.2)) tbl = blockFold B (e :: tbl)
    have : blockStep B (e.1, e.2) = blockStep B e := by cases e; rfl
    rw [this]
    rfl

theorem replaceAll_single (p : Char) (rep : List Char) :
    ∀ s : List Char, replaceAll [p] rep s = charSub p rep s := by
  intro s
  induction s with
  | nil => rfl
  | cons c cs ih =>
    unfold replaceAll at ih ⊢
    have hlen : (c :: cs).length = cs.length + 1 := rfl
    rw [hlen, replaceAllGo]
    have hdrop : (c :: cs).drop ([p] : List Char).length = cs := rfl
    rw [hdrop]
    by_cases hc : p = c
    · have hsw : startsW [p] (c :: cs) = true := by
        simp [startsW, hc]
      rw [if_pos hsw, ih]
      simp [charSub, hc.symm]
    · have hsw : startsW [p] (c :: cs) = false := by
        simp [startsW, hc]
      rw [hsw]
      simp only [Bool.false_eq_true, if_false]
      rw [ih]
      have hcp : ¬ c = p := fun h => hc h.symm
      simp [charSub, hcp]

theorem charSub_flatMap (p : Char) (cmd : List Char) (s : List Char)
    (g : Char → List Char) :
    charSub p cmd (s.flatMap g) = s.flatMap (fun c => charSub p cmd (g c)) := by
  unfold charSub
  rw [List.flatMap_assoc]

theorem charFoldAux_flatMap :
    ∀ (tbl : List (Char × List Char)) (s : List Char) (g : Char → List Char),
      charFoldAux tbl (s.flatMap g) = s.flatMap (fun c => charFoldAux tbl (g c)) := by
  intro tbl
  induction tbl with
  | nil => intro s g; rfl
  | cons e tbl ih =>
    intro s g
    show charFoldAux tbl (charSub e.1 e.2 (s.flatMap g)) = _
    rw [charSub_flatMap, ih]
    rfl

theorem fwd_fold (s : List Char) :
    convertIpaToTipa s = s.flatMap charFold := by
  have hswap : ∀ (tbl : List (Char × List Char)) (x : List Char),
      tbl.foldl (fun acc e => replaceAll [e.1] e.2 acc) x =
        tbl.foldl (fun acc e => charSub e.1 e.2 acc) x := by
    intro tbl
    induction tbl with
    | nil => intro x; rfl
    | cons e tbl ih =>
      intro x
      simp only [List.foldl_cons]
      rw [replaceAll_single, ih]
  show ipaToTipaTable.foldl (fun acc e => replaceAll [e.1] e.2 acc) s = _
  rw [hswap]
  have hid : s = s.flatMap (fun c => [c]) := by simp
  calc ipaToTipaTable.foldl (fun acc e => charSub e.1 e.2 acc) s
      = charFoldAux ipaToTipaTable (s.flatMap (fun c => [c])) := by rw [← hid]; rfl
    _ = s.flatMap (fun c => charFoldAux ipaToTipaTable [c]) :=
        charFoldAux_flatMap ipaToTipaTable s (fun c => [c])
    _ = s.flatMap charFold := rfl

theorem goodKeys_blockOK :
    ∀ c ∈ goodKeys, blockOKb tipaToIpaTable (charFold c) = true := by
  decide

theorem goodKeys_blockFold :
    ∀ c ∈ goodKeys, blockFold (charFold c) tipaToIpaTable = [c] := by
  decide

/-- C7: the tipa round-trip `_convert_tipa_back_to_ipa ∘ _convert_ipa_to_tipa`
is the identity on strings built from forward-table keys, provided every
character is one of the 51 keys whose tipa command is theirs alone
(`goodKeys`); the five keys ʝ, ɹ, ɠ, ɡ, ʼ share their command with
ʑ, ɻ, ʛ, ɢ, ʔ and come back as the latter (see `c7_counterexample`). -/
theorem c7_roundtrip (s : List Char) (h : ∀ c ∈ s, c ∈ goodKeys) :
    convertTipaBackToIpa (convertIpaToTipa s) = s := by
  rw [fwd_fold]
  have hmap : s.flatMap charFold = (s.map charFold).flatMap id := by
    simp [List.flatMap_map]
  rw [hmap]
  show tipaToIpaTable.foldl (fun acc e => replaceAll e.1 [e.2] acc)
      ((s.map charFold).flatMap id) = s
  rw [inverse_blocks tipaToIpaTable (s.map charFold) ?hok]
  case hok =>
    intro B hB
    obtain ⟨c, hc, rfl⟩ := List.mem_map.mp hB
    exact goodKeys_blockOK c (h c hc)
  rw [List.flatMap_map]
  have hfin : s.flatMap (fun c => blockFold (charFold c) tipaToIpaTable) =
      s.flatMap (fun c => [c]) :=
    flatMap_congr_mem s _ _ (fun c hc => goodKeys_blockFold c (h c hc))
  rw [hfin]
  simp

/-- Witness for C7 at the concrete string "ɨŋ". -/
theorem c7_witness :
    (∀ c ∈ ['ɨ', 'ŋ'], c ∈ goodKeys) ∧
    convertTipaBackToIpa (convertIpaToTipa ['ɨ', 'ŋ']) = ['ɨ', 'ŋ'] :=
  ⟨by decide, c7_roundtrip ['ɨ', 'ŋ'] (by decide)⟩

theorem consumeSegs_take :
    ∀ (segs : List (List Char)) (cursor : List (List Char)),
      consumeSegs segs cursor = cursor.take (consCount segs) := by
  intro segs
  induction segs with
  | nil => intro cursor; simp [consumeSegs, consCount]
  | cons seg rest ih =>
    intro cursor
    have hunf : consumeSegs (seg :: rest) cursor =
        (if isDelimSeg seg = true then consumeSegs rest cursor
         else if pyStrip seg ≠ [] then
           match cursor with
           | [] => consumeSegs rest []
           | t :: ts => t :: consumeSegs rest ts
         else consumeSegs rest cursor) := rfl
    rw [hunf]
    by_cases hd : isDelimSeg seg = true
    · rw [if_pos hd, ih]
      have : consCount (seg :: rest) = consCount rest := by
        simp [consCount, List.filter_cons, hd]
      rw [this]
    · have hd' : isDelimSeg seg = false := by
        revert hd; cases isDelimSeg seg <;> simp
      rw [if_neg hd]
      by_cases hs : pyStrip seg ≠ []
      · rw [if_pos hs]
        have hcnt : consCount (seg :: rest) = consCount rest + 1 := by
          have hse : (pyStrip seg).isEmpty = false := by
            cases hps : pyStrip seg with
            | nil => exact absurd hps hs
            | cons a b => rfl
          simp [consCount, List.filter_cons, hd', hse]
        rw [hcnt]
        cases cursor with
        | nil =>
          show consumeSegs rest [] = List.take (consCount rest + 1) []
          rw [ih]; simp
        | cons t ts =>
          show t :: consumeSegs rest ts = List.take (consCount rest + 1) (t :: ts)
          rw [ih, List.take_succ_cons]
      · rw [if_neg hs, ih]
        have hse : (pyStrip seg).isEmpty = true := by
          have hnil : pyStrip seg = [] := by simpa using hs
          rw [hnil]; rfl
        have : consCount (seg :: rest) = consCount rest := by
          simp [consCount, List.filter_cons, hd', hse]
        rw [this]

theorem splitOnDelims_ne_nil : ∀ l : List Char, splitOnDelims l ≠ [] := by
  intro l
  cases l with
  | nil => simp [splitOnDelims]
  | cons c cs =>
    rw [splitOnDelims.eq_def]
    by_cases hc : isDelim c = true
    · simp [hc]
    · have hc' : isDelim c = false := by revert hc; cases isDelim c <;> simp
      simp only [hc', Bool.false_eq_true, if_false]
      cases hsp : splitOnDelims cs with
      | nil => simp
      | cons p rest => simp

theorem splitOnDelims_delim (d : Char) (l : List Char) (hd : isDelim d = true) :
    splitOnDelims (d :: l) = [] :: splitOnDelims l := by
  rw [splitOnDelims.eq_def]
  simp [hd]

theorem splitOnDelims_append_tok :
    ∀ (p l : List Char), (∀ c ∈ p, isDelim c = false) →
      splitOnDelims (p ++ l) =
        (p ++ (splitOnDelims l).headI) :: (splitOnDelims l).tail := by
  intro p
  induction p with
  | nil =>
    intro l _
    cases hsp : splitOnDelims l with
    | nil => exact absurd hsp (splitOnDelims_ne_nil l)
    | cons q qs => simp [hsp]
  | cons c p' ih =>
    intro l hcl
    have hc : isDelim c = false := (hcl c (by simp))
    rw [List.cons_append, splitOnDelims.eq_def]
    simp only [hc, Bool.false_eq_true, if_false]
    rw [ih l (fun x hx => hcl x (by simp [hx]))]
    simp

theorem reSplitDelims_alt :
    ∀ w : List Char, (∀ c ∈ w, isWS c = false) → AltSegs false (reSplitDelims w) := by
  intro w
  induction w with
  | nil => intro _; exact ⟨by simp, trivial⟩
  | cons c cs ih =>
    intro hws
    rw [reSplitDelims.eq_def]
    by_cases hc : isDelim c = true
    · simp only [hc, if_true]
      refine ⟨by simp, ?_, ih (fun x hx => hws x (by simp [hx]))⟩
      have : c = '=' ∨ c = '-' := by simpa [isDelim] using hc
      rcases this with rfl | rfl
      · exact Or.inl rfl
      · exact Or.inr rfl
    · have hc' : isDelim c = false := by revert hc; cases isDelim c <;> simp
      simp only [hc', Bool.false_eq_true, if_false]
      have hcgood : isDelim c = false ∧ isWS c = false := ⟨hc', hws c (by simp)⟩
      cases hsp : reSplitDelims cs with
      | nil => exact ⟨by simpa using hcgood, trivial⟩
      | cons p rest =>
        have ihr := ih (fun x hx => hws x (by simp [hx]))
        rw [hsp] at ihr
        obtain ⟨hp, hrest⟩ := ihr
        refine ⟨?_, hrest⟩
        intro x hx
        rcases List.mem_cons.mp hx with rfl | h0
        · exact hcgood
        · exact hp x h0

theorem depTokensWord_delim (d : Char) (l : List Char) (hd : isDelim d = true) :
    depTokensWord (d :: l) = depTokensWord l := by
  unfold depTokensWord
  rw [splitOnDelims_delim d l hd]
  simp

theorem reassemble_split_head :
    ∀ (segs wm : List (List Char)), AltSegs true segs →
      ∃ qs, splitOnDelims (reassemble segs wm).flatten = [] :: qs := by
  intro segs wm halt
  cases segs with
  | nil => exact ⟨[], rfl⟩
  | cons s rest =>
    have hs : s = ['='] ∨ s = ['-'] := halt.1
    have hds : isDelimSeg s = true := by rcases hs with rfl | rfl <;> rfl
    have hunf : reassemble (s :: rest) wm =
        (if isDelimSeg s = true then s :: reassemble rest wm
         else if pyStrip s ≠ [] ∧ wm ≠ [] then
           match wm with
           | [] => reassemble rest wm
           | t :: ts => t :: reassemble rest ts
         else reassemble rest wm) := rfl
    rw [hunf, if_pos hds]
    obtain ⟨d, hddel, rfl⟩ : ∃ d, isDelim d = true ∧ s = [d] := by
      rcases hs with rfl | rfl
      · exact ⟨'=', by decide, rfl⟩
      · exact ⟨'-', by decide, rfl⟩
    refine ⟨splitOnDelims (reassemble rest wm).flatten, ?_⟩
    show splitOnDelims (d :: (reassemble rest wm).flatten) = _
    exact splitOnDelims_delim d _ hddel

theorem reassemble_cons (seg : List Char) (rest wm : List (List Char)) :
    reassemble (seg :: rest) wm =
      (if isDelimSeg seg = true then seg :: reassemble rest wm
       else if pyStrip seg ≠ [] ∧ wm ≠ [] then
         match wm with
         | [] => reassemble rest wm
         | t :: ts => t :: reassemble rest ts
       else reassemble rest wm) := rfl

theorem reassemble_parse :
    ∀ (segs : List (List Char)) (flag : Bool) (wm : List (List Char)),
      AltSegs flag segs →
      (∀ t ∈ wm, t ≠ [] ∧ ∀ c ∈ t, isDelim c = false) →
      depTokensWord (reassemble segs wm).flatten = wm.take (consCount segs) := by
  intro segs
  induction segs with
  | nil => intro flag wm _ _; rfl
  | cons seg rest ih =>
    intro flag wm halt hwm
    have hunf := reassemble_cons seg rest wm
    cases flag with
    | true =>
      have hs : seg = ['='] ∨ seg = ['-'] := halt.1
      have halt' : AltSegs false rest := halt.2
      have hds : isDelimSeg seg = true := by rcases hs with rfl | rfl <;> rfl
      rw [hunf, if_pos hds]
      have hcnt : consCount (seg :: rest) = consCount rest := by
        simp [consCount, List.filter_cons, hds]
      rw [hcnt]
      obtain ⟨d, hddel, rfl⟩ : ∃ d, isDelim d = true ∧ seg = [d] := by
        rcases hs with rfl | rfl
        · exact ⟨'=', by decide, rfl⟩
        · exact ⟨'-', by decide, rfl⟩
      show depTokensWord (d :: (reassemble rest wm).flatten) = wm.take (consCount rest)
      rw [depTokensWord_delim d _ hddel]
      exact ih false wm halt' hwm
    | false =>
      have hsg : ∀ c ∈ seg, isDelim c = false ∧ isWS c = false := halt.1
      have halt' : AltSegs true rest := halt.2
      have hds : isDelimSeg seg = false := by
        cases hd : isDelimSeg seg
        · rfl
        · exfalso
          have hse : seg = ['='] ∨ seg = ['-'] := by simpa [isDelimSeg] using hd
          rcases hse with rfl | rfl
          · have := (hsg '=' (by simp)).1; simp [isDelim] at this
          · have := (hsg '-' (by simp)).1; simp [isDelim] at this
      rw [hunf]
      simp only [hds, Bool.false_eq_true, if_false]
      by_cases hblank : pyStrip seg = []
      · rw [if_neg (fun h => h.1 hblank)]
        have hcnt : consCount (seg :: rest) = consCount rest := by
          have hse : (pyStrip seg).isEmpty = true := by rw [hblank]; rfl
          simp [consCount, List.filter_cons, hds, hse]
        rw [hcnt]
        exact ih true wm halt' hwm
      · have hcnt : consCount (seg :: rest) = consCount rest + 1 := by
          have hse : (pyStrip seg).isEmpty = false := by
            cases hps : pyStrip seg with
            | nil => exact absurd hps hblank
            | cons a b => rfl
          simp [consCount, List.filter_cons, hds, hse]
        rw [hcnt]
        cases wm with
        | nil =>
          rw [if_neg (fun h => h.2 rfl)]
          rw [ih true [] halt' (fun t ht => absurd ht (by simp))]
          simp
        | cons t ts =>
          rw [if_pos ⟨hblank, by simp⟩]
          show depTokensWord (t ++ (reassemble rest ts).flatten) =
            (t :: ts).take (consCount rest + 1)
          obtain ⟨qs, hqs⟩ := reassemble_split_head rest ts halt'
          have ht := hwm t (by simp)
          unfold depTokensWord
          rw [splitOnDelims_append_tok t _ ht.2, hqs]
          have h1 : (([] : List Char) :: qs).headI = [] := rfl
          have h2 : (([] : List Char) :: qs).tail = qs := rfl
          rw [h1, h2, List.append_nil, List.filter_cons]
          have hne : (!t.isEmpty) = true := by
            cases htt : t with
            | nil => exact absurd htt ht.1
            | cons a b => rfl
          rw [if_pos hne, List.take_succ_cons]
          congr 1
          have ihr := ih true ts halt' (fun x hx => hwm x (by simp [hx]))
          unfold depTokensWord at ihr
          rw [hqs] at ihr
          simpa using ihr

theorem reassemble_chars :
    ∀ (segs wm : List (List Char)),
      (∀ t ∈ wm, ∀ c ∈ t, isWS c = false) →
      ∀ c ∈ (reassemble segs wm).flatten, isWS c = false := by
  intro segs
  induction segs with
  | nil => intro wm _ c hc; cases hc
  | cons seg rest ih =>
    intro wm hwm
    rw [reassemble_cons]
    by_cases hds : isDelimSeg seg = true
    · rw [if_pos hds]
      intro c hc
      rw [List.flatten_cons] at hc
      rcases List.mem_append.mp hc with h | h
      · have hse : seg = ['='] ∨ seg = ['-'] := by simpa [isDelimSeg] using hds
        rcases hse with rfl | rfl
        · have : c = '=' := by simpa using h
          rw [this]; rfl
        · have : c = '-' := by simpa using h
          rw [this]; rfl
      · exact ih wm hwm c h
    · rw [if_neg hds]
      by_cases hcond : pyStrip seg ≠ [] ∧ wm ≠ []
      · rw [if_pos hcond]
        cases wm with
        | nil => exact absurd rfl hcond.2
        | cons t ts =>
          intro c hc
          have hc' : c ∈ (t :: reassemble rest ts).flatten := hc
          rw [List.flatten_cons] at hc'
          rcases List.mem_append.mp hc' with h | h
          · exact hwm t (by simp) c h
          · exact ih ts (fun x hx => hwm x (by simp [hx])) c h
      · rw [if_neg hcond]
        exact ih wm hwm

theorem drop_take_length {α : Type} (l : List α) (k : Nat) :
    l.drop ((l.take k).length) = l.drop k := by
  rw [List.length_take]
  rcases le_total k l.length with h | h
  · rw [Nat.min_eq_left h]
  · rw [Nat.min_eq_right h]
    rw [List.drop_length, List.drop_eq_nil_of_le h]

theorem alignCore_cons (w : List Char) (ws cursor : List (List Char)) :
    alignCore (w :: ws) cursor =
      (if consumeSegs (reSplitDelims w) cursor ≠ [] then
         (reassemble (reSplitDelims w) (consumeSegs (reSplitDelims w) cursor)).flatten ::
           alignCore ws (cursor.drop (consumeSegs (reSplitDelims w) cursor).length)
       else alignCore ws (cursor.drop (consumeSegs (reSplitDelims w) cursor).length)) := rfl

theorem alignCore_parse :
    ∀ (ws cursor : List (List Char)),
      (∀ w ∈ ws, ∀ c ∈ w, isWS c = false) →
      (∀ t ∈ cursor, t ≠ [] ∧ (∀ c ∈ t, isWS c = false) ∧ (∀ c ∈ t, isDelim c = false)) →
      (∀ u ∈ alignCore ws cursor,
        u ≠ [] ∧ (∀ c ∈ u, isWS c = false) ∧ depTokensWord u ≠ []) ∧
      (alignCore ws cursor).flatMap depTokensWord =
        cursor.take ((ws.map segCount).sum) := by
  intro ws
  induction ws with
  | nil =>
    intro cursor _ _
    exact ⟨fun u hu => absurd hu (by simp [alignCore]), by simp [alignCore]⟩
  | cons w ws ih =>
    intro cursor hws hcur
    have hw : ∀ c ∈ w, isWS c = false := hws w (by simp)
    have hws' : ∀ w' ∈ ws, ∀ c ∈ w', isWS c = false :=
      fun w' hw' => hws w' (by simp [hw'])
    have hwmeq : consumeSegs (reSplitDelims w) cursor =
        cursor.take (consCount (reSplitDelims w)) := consumeSegs_take _ _
    have hsum : ((w :: ws).map segCount).sum = segCount w + (ws.map segCount).sum := by
      simp
    rw [alignCore_cons, hwmeq, hsum]
    have hseg : segCount w = consCount (reSplitDelims w) := rfl
    rw [hseg]
    have hdropeq : cursor.drop ((cursor.take (consCount (reSplitDelims w))).length) =
        cursor.drop (consCount (reSplitDelims w)) := drop_take_length _ _
    rw [hdropeq]
    have hcur' : ∀ t ∈ cursor.drop (consCount (reSplitDelims w)),
        t ≠ [] ∧ (∀ c ∈ t, isWS c = false) ∧ (∀ c ∈ t, isDelim c = false) :=
      fun t ht => hcur t (List.drop_subset _ _ ht)
    obtain ⟨ihgood, ihflat⟩ := ih (cursor.drop (consCount (reSplitDelims w))) hws' hcur'
    by_cases hwm : cursor.take (consCount (reSplitDelims w)) ≠ []
    · rw [if_pos hwm]
      have hsub : ∀ t ∈ cursor.take (consCount (reSplitDelims w)),
          t ≠ [] ∧ (∀ c ∈ t, isWS c = false) ∧ (∀ c ∈ t, isDelim c = false) :=
        fun t ht => hcur t (List.take_subset _ _ ht)
      have hdep : depTokensWord
          (reassemble (reSplitDelims w) (cursor.take (consCount (reSplitDelims w)))).flatten =
          cursor.take (consCount (reSplitDelims w)) := by
        rw [reassemble_parse (reSplitDelims w) false _ (reSplitDelims_alt w hw)
          (fun t ht => ⟨(hsub t ht).1, (hsub t ht).2.2⟩)]
        exact List.take_of_length_le (by rw [List.length_take]; exact Nat.min_le_left _ _)
      have hu0ws : ∀ c ∈
          (reassemble (reSplitDelims w) (cursor.take (consCount (reSplitDelims w)))).flatten,
          isWS c = false :=
        reassemble_chars _ _ (fun t ht => (hsub t ht).2.1)
      have hu0dep : depTokensWord
          (reassemble (reSplitDelims w) (cursor.take (consCount (reSplitDelims w)))).flatten ≠
          [] := by
        rw [hdep]; exact hwm
      have hu0ne :
          (reassemble (reSplitDelims w) (cursor.take (consCount (reSplitDelims w)))).flatten ≠
          [] := by
        intro h
        apply hwm
        rw [← hdep, h]
        rfl
      constructor
      · intro u hu
        rcases List.mem_cons.mp hu with rfl | hmem
        · exact ⟨hu0ne, hu0ws, hu0dep⟩
        · exact ihgood u hmem
      · rw [List.flatMap_cons, hdep, ihflat]
        exact (List.take_add cursor _ _).symm
    · rw [if_neg hwm]
      have hwm' : cursor.take (consCount (reSplitDelims w)) = [] := by
        by_contra h
        exact hwm h
      refine ⟨ihgood, ?_⟩
      rw [ihflat]
      have hmin : min (consCount (reSplitDelims w)) cursor.length = 0 := by
        have := congrArg List.length hwm'
        rw [List.length_take] at this
        simpa using this
      rcases Nat.min_eq_zero_iff.mp hmin with h | h
      · rw [h]
        simp
      · have hnil : cursor = [] := List.length_eq_zero.mp h
        rw [hnil]
        simp

/-- C10 counterexample: with reference text "a" and dependent string "x=y"
(one dependent token that itself contains a delimiter), the aligned output
"x=y" parses into two dependent tokens, exceeding the claimed bound
min(1 dependent token, 1 reference segment) = 1. -/
theorem c10_counterexample :
    depTokens (alignMorphsWithText ['a'] ['x', '=', 'y']) = [['x'], ['y']] ∧
    (pySplit ['x', '=', 'y']).length = 1 ∧
    totalSegs ['a'] = 1 ∧
    ¬ (depTokens (alignMorphsWithText ['a'] ['x', '=', 'y'])).length ≤
        min (pySplit ['x', '=', 'y']).length (totalSegs ['a']) := by
  decide

/-- C10 (amended): for non-empty reference text and non-empty dependent
string whose whitespace-separated tokens are delimiter-free, the dependent
tokens readable off the aligned output are exactly the first
min(number of dependent tokens, total segment count) dependent tokens in
order — so at most that many, with the excess silently discarded — and
every emitted output word carries at least one dependent token (no empty
word is emitted). -/
theorem c10_align_token_conservation (text morph : List Char)
    (htext : text ≠ []) (hmorph : morph ≠ [])
    (hclean : ∀ t ∈ pySplit morph, ∀ c ∈ t, isDelim c = false) :
    depTokens (alignMorphsWithText text morph) =
      (pySplit morph).take (totalSegs text) ∧
    (depTokens (alignMorphsWithText text morph)).length =
      min (pySplit morph).length (totalSegs text) ∧
    ∀ u ∈ pySplit (alignMorphsWithText text morph), depTokensWord u ≠ [] := by
  have hout : alignMorphsWithText text morph =
      if pySplit morph = [] then morph
      else joinSpace (alignCore (pySplit text) (pySplit morph)) := by
    unfold alignMorphsWithText
    rw [if_neg (by rintro (h | h); exacts [htext h, hmorph h])]
  by_cases hml : pySplit morph = []
  · rw [hout, if_pos hml]
    refine ⟨?_, ?_, ?_⟩
    · unfold depTokens
      rw [hml]
      simp
    · unfold depTokens
      rw [hml]
      simp
    · intro u hu
      rw [hml] at hu
      cases hu
  · rw [hout, if_neg hml]
    have hcur : ∀ t ∈ pySplit morph,
        t ≠ [] ∧ (∀ c ∈ t, isWS c = false) ∧ (∀ c ∈ t, isDelim c = false) :=
      fun t ht => ⟨(pySplit_sound morph t ht).1, (pySplit_sound morph t ht).2, hclean t ht⟩
    have hwords : ∀ w ∈ pySplit text, ∀ c ∈ w, isWS c = false :=
      fun w hw => (pySplit_sound text w hw).2
    obtain ⟨hgood, hflat⟩ := alignCore_parse (pySplit text) (pySplit morph) hwords hcur
    have hpj : pySplit (joinSpace (alignCore (pySplit text) (pySplit morph))) =
        alignCore (pySplit text) (pySplit morph) :=
      pySplit_joinSpace _ (fun u hu => ⟨(hgood u hu).1, (hgood u hu).2.1⟩)
    have htseq : totalSegs text = ((pySplit text).map segCount).sum := rfl
    refine ⟨?_, ?_, ?_⟩
    · unfold depTokens
      rw [hpj, hflat, htseq]
    · unfold depTokens
      rw [hpj, hflat, htseq, List.length_take]
      exact Nat.min_comm _ _
    · intro u hu
      rw [hpj] at hu
      exact (hgood u hu).2.2

/-- Witness for C10: text "a=b c" (three segments), morph "X Y Z W"
(four delimiter-free tokens) give output "X=Y Z": tokens X, Y, Z kept, W
discarded. -/
theorem c10_witness :
    (['a', '=', 'b', ' ', 'c'] : List Char) ≠ [] ∧
    (['X', ' ', 'Y', ' ', 'Z', ' ', 'W'] : List Char) ≠ [] ∧
    (∀ t ∈ pySplit ['X', ' ', 'Y', ' ', 'Z', ' ', 'W'], ∀ c ∈ t, isDelim c = false) ∧
    (depTokens (alignMorphsWithText ['a', '=', 'b', ' ', 'c']
        ['X', ' ', 'Y', ' ', 'Z', ' ', 'W']) =
      (pySplit ['X', ' ', 'Y', ' ', 'Z', ' ', 'W']).take
        (totalSegs ['a', '=', 'b', ' ', 'c']) ∧
    (depTokens (alignMorphsWithText ['a', '=', 'b', ' ', 'c']
        ['X', ' ', 'Y', ' ', 'Z', ' ', 'W'])).length =
      min (pySplit ['X', ' ', 'Y', ' ', 'Z', ' ', 'W']).length
        (totalSegs ['a', '=', 'b', ' ', 'c']) ∧
    ∀ u ∈ pySplit (alignMorphsWithText ['a', '=', 'b', ' ', 'c']
        ['X', ' ', 'Y', ' ', 'Z', ' ', 'W']), depTokensWord u ≠ []) :=
  ⟨by decide, by decide, by decide,
    c10_align_token_conservation ['a', '=', 'b', ' ', 'c']
      ['X', ' ', 'Y', ' ', 'Z', ' ', 'W'] (by decide) (by decide) (by decide)⟩
